import Mathlib

/-!
Verification development for the BlockModelRenderer resolution engine
(src/blockmodel-utils.js).  The JavaScript source is shallowly embedded:

* JS strings are Lean `String`s; the string primitives the source uses
  (`startsWith`, `slice`, `split`, `trim`) are re-implemented over the
  character list so that concrete runs reduce inside the kernel.
* JS objects that the code treats as ordered string-keyed maps are
  association lists `List (String × α)` with in-place update (JS keeps the
  insertion position of an updated key and appends fresh keys).
* JS numbers are `Int`/`Nat` where the code only ever holds integers, and
  `ℚ` where fractional values occur.  All fractional values appearing in
  the embedded fragments (texel coordinates, thresholds, the 0.1 variant
  sentinel) are small dyadic/decimal rationals that IEEE doubles compute
  exactly, so `ℚ` models the arithmetic bit-for-bit.
* Fallible paths (JS exceptions) are `Except Unit`.
-/

/-! ## JS string primitives (re-implemented over `List Char`) -/

/-- JS `String.prototype.startsWith`. -/
def jsStartsWith (s p : String) : Bool := p.data.isPrefixOf s.data

/-- JS `String.prototype.slice(n)` for a non-negative `n`. -/
def jsDrop (s : String) (n : Nat) : String := String.mk (s.data.drop n)

/-- Helper for `jsSplit`: split a character list at every occurrence of `c`. -/
def jsSplitAux (c : Char) : List Char → List Char → List (List Char)
  | [], acc => [acc.reverse]
  | d :: rest, acc =>
    if d = c then acc.reverse :: jsSplitAux c rest [] else jsSplitAux c rest (d :: acc)

/-- JS `String.prototype.split(sep)` for a one-character separator (the only
form the source uses: `","`, `"="`, `"|"`). -/
def jsSplit (c : Char) (s : String) : List String := (jsSplitAux c s.data []).map String.mk

/-- JS whitespace test, restricted to the ASCII whitespace that can occur in
blockstate variant keys. -/
def jsIsSpace (c : Char) : Bool := c = ' ' || c = '\t' || c = '\n' || c = '\r'

/-- JS `String.prototype.trim`. -/
def jsTrim (s : String) : String :=
  String.mk (((s.data.dropWhile jsIsSpace).reverse.dropWhile jsIsSpace).reverse)

/-! ## Texture maps and `resolveModelData`s texture pass (C1)

The `textures` object of a merged model maps slot names to either a plain
string or (from item-model overrides) an object carrying a `sprite` field.
-/

/-- A value of the merged `textures` map: a JS string, or an object whose
`sprite` field is a string or absent.  (The source never stores anything
else in this map.) -/
inductive TexVal where
  | str (s : String)
  | obj (sprite : Option String)
deriving DecidableEq

/-- Association-list lookup (JS property read on an object used as a map). -/
def alookup {α : Type} (k : String) : List (String × α) → Option α
  | [] => none
  | (k2, v) :: rest => if k2 = k then some v else alookup k rest

/-- JS property write: an existing key keeps its position, a fresh key is
appended. -/
def aset {α : Type} (k : String) (v : α) : List (String × α) → List (String × α)
  | [] => [(k, v)]
  | (k2, w) :: rest => if k2 = k then (k2, v) :: rest else (k2, w) :: aset k v rest

/-- JS `delete` of a property. -/
def adel {α : Type} (k : String) : List (String × α) → List (String × α)
  | [] => []
  | (k2, w) :: rest => if k2 = k then adel k rest else (k2, w) :: adel k rest

/-- Deleting a key leaves lookups of other keys unchanged. -/
theorem alookup_adel_ne {α : Type} (k r : String) (m : List (String × α)) (h : k ≠ r) :
    alookup k (adel r m) = alookup k m := by
  have hrk : r ≠ k := fun e => h e.symm
  induction m with
  | nil => rfl
  | cons p rest ih =>
    obtain ⟨k2, v⟩ := p
    by_cases h2 : k2 = r
    · subst h2
      simp [adel, alookup, hrk, ih]
    · by_cases hk : k2 = k
      · simp [adel, alookup, h2, hk, h]
      · simp [adel, alookup, h2, hk, ih]

/-- Writing a key leaves lookups of other keys unchanged. -/
theorem alookup_aset_ne {α : Type} (k r : String) (v : α) (m : List (String × α)) (h : k ≠ r) :
    alookup k (aset r v m) = alookup k m := by
  have hrk : r ≠ k := fun e => h e.symm
  induction m with
  | nil => simp [aset, alookup, hrk]
  | cons p rest ih =>
    obtain ⟨k2, w⟩ := p
    by_cases h2 : k2 = r
    · subst h2
      simp [aset, alookup, hrk]
    · by_cases hk : k2 = k
      · simp [aset, alookup, h2, hk, h]
      · simp [aset, alookup, h2, hk, ih]

/-- Writing a key makes its lookup return the value. -/
theorem alookup_aset_self {α : Type} (k : String) (v : α) (m : List (String × α)) :
    alookup k (aset k v m) = some v := by
  induction m with
  | nil => simp [aset, alookup]
  | cons p rest ih =>
    obtain ⟨k2, w⟩ := p
    by_cases h2 : k2 = k
    · simp [aset, alookup, h2]
    · simp [aset, alookup, h2, ih]

/-- Deleting a key empties its lookup. -/
theorem alookup_adel_self {α : Type} (k : String) (m : List (String × α)) :
    alookup k (adel k m) = none := by
  induction m with
  | nil => rfl
  | cons p rest ih =>
    obtain ⟨k2, w⟩ := p
    by_cases h2 : k2 = k
    · simp [adel, alookup, h2, ih]
    · simp [adel, alookup, h2, ih]

/-- Translation of `handleNestedTexture(key)` (blockmodel-utils.js:626-633),
a closure over the mutable `merged.textures` map, which is threaded
explicitly.  When `key` is absent the JS code reads `.sprite` of
`undefined` and throws a `TypeError`; that is the `Except.error` case.
When the value is an object it is replaced by its `sprite` string, and the
entry is deleted when that string is falsy (absent or empty) or itself a
`"#"` reference. -/
def handleNestedTexture (m : List (String × TexVal)) (k : String) :
    Except Unit (List (String × TexVal)) :=
  match alookup k m with
  | none => Except.error ()
  | some (TexVal.str _) => Except.ok m
  | some (TexVal.obj sp) =>
    match sp with
    | none => Except.ok (adel k m)
    | some s =>
      if s = "" || jsStartsWith s "#" then Except.ok (adel k m)
      else Except.ok (aset k (TexVal.str s) m)

/-- Read a map entry as the JS string value the dereferencing loop sees
(`undefined` for an absent entry; an object value cannot occur at these
read sites because `handleNestedTexture` was just applied to the key). -/
def strOfTex : Option TexVal → Option String
  | some (TexVal.str s) => some s
  | _ => none

/-- Translation of the `while (value?.startsWith("#"))` loop of
`resolveModelData` (blockmodel-utils.js:638-646), fuelled.  The loop body
dereferences `ref = value.slice(1)` after normalising it with
`handleNestedTexture`, and deletes the entry and breaks whenever
`value === merged.textures[key]` still holds.  The result pairs the map
with the local `value` at loop exit. -/
def derefLoop (k : String) :
    Nat → List (String × TexVal) → Option String →
    Except Unit (List (String × TexVal) × Option String)
  | 0, m, value => Except.ok (m, value)
  | fuel + 1, m, value =>
    match value with
    | none => Except.ok (m, value)
    | some s =>
      if jsStartsWith s "#" then
        let ref := jsDrop s 1
        match handleNestedTexture m ref with
        | Except.error e => Except.error e
        | Except.ok m2 =>
          if alookup k m2 = some (TexVal.str s) then Except.ok (adel k m2, value)
          else derefLoop k fuel m2 (strOfTex (alookup ref m2))
      else Except.ok (m, value)

/-- One iteration of the `for (const key in merged.textures)` body
(blockmodel-utils.js:635-652).  A key deleted by an earlier iteration is
skipped (JS `for..in` does not visit properties deleted before their
visit).  After the `while` loop the code runs
`merged.textures[key] = value` (which resurrects a key the loop just
deleted) and then deletes the entry when the stored value is falsy. -/
def derefKey (fuel : Nat) (m : List (String × TexVal)) (k : String) :
    Except Unit (List (String × TexVal)) :=
  match alookup k m with
  | none => Except.ok m
  | some _ =>
    match handleNestedTexture m k with
    | Except.error e => Except.error e
    | Except.ok m1 =>
      match derefLoop k fuel m1 (strOfTex (alookup k m1)) with
      | Except.error e => Except.error e
      | Except.ok (m2, value) =>
        match value with
        | none => Except.ok (adel k m2)
        | some s => if s = "" then Except.ok (adel k m2) else Except.ok (aset k (TexVal.str s) m2)

/-- Translation of the whole texture-dereferencing pass of
`resolveModelData` (blockmodel-utils.js:626-652): iterate the keys of the
map as they stood when the loop started.  The fuel bounds the inner
`while`; `derefLoop_exits_first` below shows one unit is always enough, so
any positive fuel yields the JS behaviour. -/
def derefTextures (m : List (String × TexVal)) : Except Unit (List (String × TexVal)) :=
  (m.map Prod.fst).foldlM (fun acc k => derefKey (acc.length + 1) acc k) m

/-- The inner dereferencing loop always takes its `delete`-and-`break`
branch (or exits) on the first iteration when entered from `derefKey`,
because at that point `value` is exactly the string stored at `key` and
the body never changes that binding before comparing: the recursion (and
hence the fuel) is unreachable.  This is the structural reason the JS
`while` loop can never follow a reference chain. -/
theorem derefLoop_exits_first (k : String) (fuel : Nat) (m : List (String × TexVal))
    (s : String) (hk : alookup k m = some (TexVal.str s)) :
    derefLoop k (fuel + 1) m (some s) =
      if jsStartsWith s "#" then
        match handleNestedTexture m (jsDrop s 1) with
        | Except.error e => Except.error e
        | Except.ok m2 => Except.ok (adel k m2, some s)
      else Except.ok (m, some s) := by
  unfold derefLoop
  by_cases hstart : jsStartsWith s "#"
  · simp only [hstart, if_true]
    cases hh : handleNestedTexture m (jsDrop s 1) with
    | error e => rfl
    | ok m2 =>
      have hk2 : alookup k m2 = some (TexVal.str s) := by
        unfold handleNestedTexture at hh
        cases hl : alookup (jsDrop s 1) m with
        | none => rw [hl] at hh; exact absurd hh (by simp)
        | some tv =>
          rw [hl] at hh
          cases tv with
          | str t => simp at hh; rw [← hh]; exact hk
          | obj sp =>
            -- the referenced key held an object; `k` itself holds a string,
            -- so `k ≠ ref` and the update leaves `k` untouched
            have hne : k ≠ jsDrop s 1 := by
              intro he; rw [he, hl] at hk; exact absurd hk (by simp)
            cases sp with
            | none =>
              simp at hh; rw [← hh]
              rw [alookup_adel_ne k (jsDrop s 1) m hne]; exact hk
            | some t =>
              by_cases hbad : (t = "" || jsStartsWith t "#")
              · simp [hbad] at hh; rw [← hh]
                rw [alookup_adel_ne k (jsDrop s 1) m hne]; exact hk
              · simp [hbad] at hh; rw [← hh]
                rw [alookup_aset_ne k (jsDrop s 1) (TexVal.str t) m hne]; exact hk
      simp [hk2]
  · simp [hstart]

/-- Decidable equality for `Except`, to evaluate concrete embedded runs. -/
instance {e a : Type} [DecidableEq e] [DecidableEq a] : DecidableEq (Except e a) := fun x y =>
  match x, y with
  | Except.ok v, Except.ok w =>
    if h : v = w then Decidable.isTrue (by rw [h]) else Decidable.isFalse (by simp [h])
  | Except.error v, Except.error w =>
    if h : v = w then Decidable.isTrue (by rw [h]) else Decidable.isFalse (by simp [h])
  | Except.ok v, Except.error w => Decidable.isFalse (by simp)
  | Except.error v, Except.ok w => Decidable.isFalse (by simp)

/-- Supporting evaluation: even an acyclic reference chain is left
unresolved by the pass — `{a: "#b", b: "stone"}` keeps `a = "#b"` instead
of replacing it with `"stone"` — because the loop compares the local
`value` against the unchanged `merged.textures[key]` on its first
iteration, deletes the entry, breaks, and the assignment after the loop
restores the original value (re-appending the key at the end of the
insertion order, which is where a JS assignment puts a freshly deleted
property). -/
theorem derefTextures_chain_unresolved :
    derefTextures [("a", TexVal.str "#b"), ("b", TexVal.str "stone")] =
      Except.ok [("b", TexVal.str "stone"), ("a", TexVal.str "#b")] := by decide

/-- Supporting evaluation: a reference to a missing key does not delete the
entry; it throws a `TypeError` (reading `.sprite` of `undefined` inside
`handleNestedTexture`), which propagates out of `resolveModelData`. -/
theorem derefTextures_missing_ref_throws :
    derefTextures [("a", TexVal.str "#b")] = Except.error () := by decide

/-- C1: the texture-dereferencing pass of `resolveModelData`
(blockmodel-utils.js:626-652), run on the cyclic map `{a: "#b", b: "#a"}`,
returns the map unchanged: both entries survive and both still carry the
`"#"` reference marker.  The claim states that every such chain is
dereferenced until a literal remains and that a cycle has its entries
deleted; the code does neither, so this is evidence of a code bug (the
spec lists this very input as a testable property). -/
theorem c1_texture_cycle_left_unresolved :
    derefTextures [("a", TexVal.str "#b"), ("b", TexVal.str "#a")] =
      Except.ok [("a", TexVal.str "#b"), ("b", TexVal.str "#a")] := by decide

/-! ## Model documents and the parent-chain merge of `resolveModelData` (C4)

A model document is a JSON object.  In the documents this engine
processes, every field is a scalar (string, number, boolean, null), the
`textures` map, the `display` map of per-slot transforms, the `elements`
array of boxes, or some other composite the merge never inspects (it only
tests its truthiness and copies the reference); the grammar below mirrors
exactly that.
-/

/-- One face of an element (`Face` of the data model): texture reference,
explicit UV rectangle, UV rotation, tint index. -/
structure ElemFace where
  texture : Option String
  uv : Option (List ℚ)
  rotationF : Option Int
  tintindex : Option Nat
deriving DecidableEq

/-- `rotation` of an element: `origin`, `axis`, `angle`, `rescale`, plus
the free-form `x`/`y`/`z` fields the geometry synthesizer also
destructures. -/
structure ElemRotation where
  origin : List ℚ
  axis : Option String
  angle : Option ℚ
  rescale : Bool
  rx : Option ℚ
  ry : Option ℚ
  rz : Option ℚ
deriving DecidableEq

/-- An element: axis-aligned box with per-face data, optional pivot
rotation, optional shading opt-out. -/
structure Element where
  efrom : List ℚ
  eto : List ℚ
  faces : List (String × ElemFace)
  rotationE : Option ElemRotation
  shade : Option Bool
deriving DecidableEq

/-- One `display` slot transform. -/
structure DisplaySlot where
  rotationD : Option (List ℚ)
  translation : Option (List ℚ)
  scale : Option (List ℚ)
deriving DecidableEq

/-- A field value of a model document. -/
inductive DVal where
  | num (q : ℚ)
  | str (s : String)
  | jbool (b : Bool)
  | null
  | texmap (m : List (String × TexVal))
  | dispmap (m : List (String × DisplaySlot))
  | elemsv (es : List Element)
  | misc (tag : String)
deriving DecidableEq

/-- JS truthiness of a field value (`undefined` is handled at lookup
sites as `Option.none`). -/
def truthy : DVal → Bool
  | DVal.num q => !(q == 0)
  | DVal.str s => !(s == "")
  | DVal.jbool b => b
  | DVal.null => false
  | DVal.texmap _ => true
  | DVal.dispmap _ => true
  | DVal.elemsv _ => true
  | DVal.misc _ => true

/-- Truthiness of `merged[key]` (absent reads as `undefined`, falsy). -/
def truthyAt (m : List (String × DVal)) (k : String) : Bool :=
  match alookup k m with
  | some v => truthy v
  | none => false

/-- Processing of one `key` of one stack layer by the merge loop of
`resolveModelData` (blockmodel-utils.js:603-624):
`textures` entries accumulate with presence-based first-write-wins;
`display` likewise unless the merged record carries `type === "block"`;
every other key is copied only when `merged[key]` is falsy. -/
def mergeStep (m : List (String × DVal)) (kv : String × DVal) : List (String × DVal) :=
  if kv.1 = "textures" then
    let cur := match alookup "textures" m with
      | some (DVal.texmap t) => t
      | _ => []
    let layerTex := match kv.2 with
      | DVal.texmap t => t
      | _ => []
    let merged2 := layerTex.foldl
      (fun acc e => match alookup e.1 acc with
        | some _ => acc
        | none => aset e.1 e.2 acc) cur
    aset "textures" (DVal.texmap merged2) m
  else if kv.1 = "display" then
    if alookup "type" m = some (DVal.str "block") then m
    else
      let cur := match alookup "display" m with
        | some (DVal.dispmap t) => t
        | _ => []
      let layerDisp := match kv.2 with
        | DVal.dispmap t => t
        | _ => []
      let merged2 := layerDisp.foldl
        (fun acc e => match alookup e.1 acc with
          | some _ => acc
          | none => aset e.1 e.2 acc) cur
      aset "display" (DVal.dispmap merged2) m
  else if truthyAt m kv.1 then m
  else aset kv.1 kv.2 m

/-- Merge one stack layer into the accumulating record
(`for (const key in layer)`). -/
def mergeLayer (m : List (String × DVal)) (layer : List (String × DVal)) :
    List (String × DVal) :=
  layer.foldl mergeStep m

/-- Merge the whole parent stack, most-derived document first
(`for (const layer of stack)`), into the initial record cloned from the
model reference. -/
def mergeStack (init : List (String × DVal)) (stack : List (List (String × DVal))) :
    List (String × DVal) :=
  stack.foldl mergeLayer init

/-- A merge step for a key other than `k` (with `k` not one of the two
composite fields) cannot change `merged[k]`. -/
theorem alookup_mergeStep_ne (m : List (String × DVal)) (kv : String × DVal) (k : String)
    (hne : kv.1 ≠ k) (ht : k ≠ "textures") (hd : k ≠ "display") :
    alookup k (mergeStep m kv) = alookup k m := by
  unfold mergeStep
  by_cases h1 : kv.1 = "textures"
  · simp only [h1, if_true]
    exact alookup_aset_ne k "textures" _ m ht
  · simp only [h1, if_false]
    by_cases h2 : kv.1 = "display"
    · simp only [h2, if_true]
      by_cases h3 : alookup "type" m = some (DVal.str "block")
      · simp [h3]
      · simp only [h3, if_false]
        exact alookup_aset_ne k "display" _ m hd
    · simp only [h2, if_false]
      by_cases h4 : truthyAt m kv.1
      · simp [h4]
      · simp only [h4, if_false]
        exact alookup_aset_ne k kv.1 kv.2 m (fun e => hne e.symm)

/-- Merging a layer that does not mention `k` leaves `merged[k]`
unchanged. -/
theorem alookup_mergeLayer_notmem (m : List (String × DVal))
    (layer : List (String × DVal)) (k : String)
    (hk : ∀ p ∈ layer, p.1 ≠ k) (ht : k ≠ "textures") (hd : k ≠ "display") :
    alookup k (mergeLayer m layer) = alookup k m := by
  induction layer generalizing m with
  | nil => rfl
  | cons p rest ih =>
    have h1 : p.1 ≠ k := hk p (List.mem_cons_self p rest)
    have h2 : ∀ q ∈ rest, q.1 ≠ k := fun q hq => hk q (List.mem_cons_of_mem p hq)
    unfold mergeLayer at ih ⊢
    rw [List.foldl_cons, ih (mergeStep m p) h2, alookup_mergeStep_ne m p k h1 ht hd]

/-- Characterisation of one layer merge at a scalar key `k`: when the
layer carries `k`, the layer value lands in the record exactly when the
current value is falsy; otherwise nothing changes. -/
theorem alookup_mergeLayer (m : List (String × DVal)) (layer : List (String × DVal))
    (k : String) (ht : k ≠ "textures") (hd : k ≠ "display")
    (hnd : (layer.map Prod.fst).Nodup) :
    alookup k (mergeLayer m layer) =
      match alookup k layer with
      | none => alookup k m
      | some v => if truthyAt m k then alookup k m else some v := by
  induction layer generalizing m with
  | nil => rfl
  | cons p rest ih =>
    obtain ⟨k2, v2⟩ := p
    have hnd2 : (rest.map Prod.fst).Nodup := (List.nodup_cons.mp hnd).2
    by_cases hk2 : k2 = k
    · subst hk2
      have hnd3 : k2 ∉ rest.map Prod.fst := by
        have := hnd
        simp only [List.map_cons, List.nodup_cons] at this
        exact this.1
      have hnotin : ∀ q ∈ rest, q.1 ≠ k2 := by
        intro q hq he
        have hmem : q.1 ∈ rest.map Prod.fst := List.mem_map_of_mem Prod.fst hq
        rw [he] at hmem
        exact hnd3 hmem
      unfold mergeLayer
      rw [List.foldl_cons]
      have hrest := alookup_mergeLayer_notmem (mergeStep m (k2, v2)) rest k2 hnotin ht hd
      unfold mergeLayer at hrest
      rw [hrest]
      simp only [alookup, if_pos rfl]
      unfold mergeStep
      simp only [ht, hd, if_false]
      by_cases htr : truthyAt m k2
      · simp [htr]
      · simp [htr, alookup_aset_self]
    · have hlook : alookup k ((k2, v2) :: rest) = alookup k rest := by
        simp [alookup, hk2]
      rw [hlook]
      unfold mergeLayer
      rw [List.foldl_cons]
      have hstep := alookup_mergeStep_ne m (k2, v2) k hk2 ht hd
      have htr : truthyAt (mergeStep m (k2, v2)) k = truthyAt m k := by
        unfold truthyAt
        rw [hstep]
      have := ih (mergeStep m (k2, v2)) hnd2
      unfold mergeLayer at this
      rw [this, htr, hstep]

/-- The values the stack (preceded by the initial record) carries for
field `k`, most-derived first. -/
def mergeOccs (init : List (String × DVal)) (stack : List (List (String × DVal)))
    (k : String) : List DVal :=
  (match alookup k init with
   | some v => [v]
   | none => []) ++ stack.filterMap (alookup k)

/-- First truthy value of a list, else its last element: the value the
merge loop actually keeps for a scalar field. -/
def firstTruthyElseLast (l : List DVal) : Option DVal :=
  match l.find? truthy with
  | some v => some v
  | none => l.getLast?

/-- A falsy head does not affect `firstTruthyElseLast` of a non-empty
list. -/
theorem firstTruthyElseLast_cons_falsy (x : DVal) (l : List DVal)
    (hx : truthy x = false) (hl : l ≠ []) :
    firstTruthyElseLast (x :: l) = firstTruthyElseLast l := by
  unfold firstTruthyElseLast
  rw [List.find?_cons_of_neg _ (by simp [hx])]
  cases hf : l.find? truthy with
  | some v => simp
  | none =>
    cases l with
    | nil => exact absurd rfl hl
    | cons z zs => simp [List.getLast?_cons_cons]

/-- C4 (amended): over the parent stack, for every field other than the
composite `textures`/`display` fields, the merge keeps the first
**truthy** value in most-derived-first order; when no occurrence is
truthy it keeps the last (most ancestral) occurrence.  In particular a
truthy more-derived value always beats more-ancestral ones, but a falsy
more-derived value (0, false, "", null) is overwritten by an ancestor. -/
theorem c4_merge_first_truthy_wins (init : List (String × DVal))
    (stack : List (List (String × DVal))) (k : String)
    (ht : k ≠ "textures") (hd : k ≠ "display")
    (hnd : ∀ layer ∈ stack, (layer.map Prod.fst).Nodup) :
    alookup k (mergeStack init stack) = firstTruthyElseLast (mergeOccs init stack k) := by
  induction stack generalizing init with
  | nil =>
    unfold mergeStack mergeOccs
    cases h : alookup k init with
    | none => simp [firstTruthyElseLast, h]
    | some v =>
      by_cases htr : truthy v
      · simp [firstTruthyElseLast, List.find?, htr, h]
      · simp [firstTruthyElseLast, List.find?, htr, h]
  | cons layer rest ih =>
    have hndl : (layer.map Prod.fst).Nodup := hnd layer (List.mem_cons_self _ _)
    have hndr : ∀ l ∈ rest, (l.map Prod.fst).Nodup :=
      fun l hl => hnd l (List.mem_cons_of_mem _ hl)
    unfold mergeStack
    rw [List.foldl_cons]
    have hih := ih (mergeLayer init layer) hndr
    unfold mergeStack at hih
    rw [hih]
    have hml := alookup_mergeLayer init layer k ht hd hndl
    cases ha : alookup k init with
    | some va =>
      cases hb : alookup k layer with
      | none =>
        rw [hb] at hml
        simp only [mergeOccs, List.filterMap_cons, hml, ha, hb, List.singleton_append, List.nil_append]
      | some vb =>
        rw [hb] at hml
        simp only [truthyAt, ha] at hml
        by_cases htr : truthy va
        · simp only [htr, if_true, ha] at hml
          simp only [mergeOccs, List.filterMap_cons, hml, ha, hb, List.singleton_append, List.nil_append]
          unfold firstTruthyElseLast
          rw [List.find?_cons_of_pos _ htr, List.find?_cons_of_pos _ htr]
        · simp only [htr, if_false] at hml
          simp only [mergeOccs, List.filterMap_cons, hml, ha, hb, List.singleton_append, List.nil_append]
          rw [firstTruthyElseLast_cons_falsy va _ (by simp [htr]) (by simp)]
          simp
    | none =>
      have hta : truthyAt init k = false := by simp [truthyAt, ha]
      cases hb : alookup k layer with
      | none =>
        rw [hb] at hml
        simp only [mergeOccs, List.filterMap_cons, hml, ha, hb, List.singleton_append, List.nil_append]
      | some vb =>
        rw [hb] at hml
        simp only [hta, if_false] at hml
        simp only [mergeOccs, List.filterMap_cons, hml, ha, hb, List.singleton_append, List.nil_append]
        simp

/-- Witness for `c4_merge_first_truthy_wins`: the spec example — child
`{x: 1}` over parent `{x: 2, y: 3}` merges to `{x: 1, y: 3}`. -/
theorem c4_merge_first_truthy_wins_witness :
    ("x" : String) ≠ "textures" ∧
    alookup "x" (mergeStack []
      [[("x", DVal.num 1)], [("x", DVal.num 2), ("y", DVal.num 3)]]) = some (DVal.num 1) ∧
    alookup "y" (mergeStack []
      [[("x", DVal.num 1)], [("x", DVal.num 2), ("y", DVal.num 3)]]) = some (DVal.num 3) := by
  refine ⟨by decide, ?_, ?_⟩
  · rw [c4_merge_first_truthy_wins [] [[("x", DVal.num 1)], [("x", DVal.num 2), ("y", DVal.num 3)]]
      "x" (by decide) (by decide) (by decide)]
    decide
  · rw [c4_merge_first_truthy_wins [] [[("x", DVal.num 1)], [("x", DVal.num 2), ("y", DVal.num 3)]]
      "y" (by decide) (by decide) (by decide)]
    decide

/-- C4 counterexample to the claim as stated: the claim says the
more-derived value is kept for **every** scalar field present in both
documents, but a falsy more-derived value is not: child `{x: 0}` over
parent `{x: 2, y: 3}` merges to `{x: 2, y: 3}`, not `{x: 0, y: 3}` —
the merge guard is `!merged[key]` (truthiness), not presence. -/
theorem c4_counterexample :
    alookup "x" (mergeStack []
      [[("x", DVal.num 0)], [("x", DVal.num 2), ("y", DVal.num 3)]]) = some (DVal.num 2) ∧
    some (DVal.num 2) ≠ some (DVal.num 0) := by
  exact ⟨by decide, by decide⟩

/-! ## `resolveItemModel`: the `range_dispatch` node (C7) -/

/-- Translation of the `range_dispatch` branch of `resolveItemModel`
(blockmodel-utils.js:471-481).  The context value arrives already parsed
(`parseFloat(data[prop] ?? 0)`: an absent property reads as 0); it is
scaled by `def.scale ?? 1`; then the loop starts from `def.fallback` and
overwrites the choice with each entry whose threshold is at most the
scaled value, so the **last such entry in list order** wins. -/
def rangeDispatch (scale : Option ℚ) (entries : List (ℚ × String))
    (fallback : Option String) (propVal : Option ℚ) : Option String :=
  entries.foldl
    (fun chosen e => if e.1 ≤ scale.getD 1 * propVal.getD 0 then some e.2 else chosen)
    fallback

/-- In an ascending-`Pairwise` list the last element dominates every
element. -/
theorem pairwise_le_getLast (l : List (ℚ × String)) (m : ℚ × String)
    (hp : l.Pairwise (fun a b => a.1 ≤ b.1)) (hm : l.getLast? = some m) :
    ∀ x ∈ l, x.1 ≤ m.1 := by
  induction l with
  | nil => simp at hm
  | cons a rest ih =>
    intro x hx
    cases hrest : rest with
    | nil =>
      subst hrest
      simp at hm hx
      subst hm; subst hx; exact le_refl _
    | cons b rs =>
      subst hrest
      rw [List.getLast?_cons_cons] at hm
      rcases List.mem_cons.mp hx with hxa | hxr
      · subst hxa
        have hmm : m ∈ b :: rs := List.mem_of_mem_getLast? hm
        exact (List.pairwise_cons.mp hp).1 m hmm
      · exact ih (List.pairwise_cons.mp hp).2 hm x hxr

/-- The `range_dispatch` fold keeps the last qualifying entry: it equals
the last element of the qualifying filter, with the fallback when the
filter is empty. -/
theorem rangeDispatch_eq_last_filter (scale : Option ℚ) (entries : List (ℚ × String))
    (fallback : Option String) (propVal : Option ℚ) :
    rangeDispatch scale entries fallback propVal =
      match (entries.filter fun e => decide (e.1 ≤ scale.getD 1 * propVal.getD 0)).getLast? with
      | some e => some e.2
      | none => fallback := by
  unfold rangeDispatch
  induction entries generalizing fallback with
  | nil => rfl
  | cons e rest ih =>
    rw [List.foldl_cons]
    rw [ih]
    by_cases hq : e.1 ≤ scale.getD 1 * propVal.getD 0
    · rw [List.filter_cons_of_pos (by simpa using hq)]
      cases hrf : rest.filter (fun e => decide (e.1 ≤ scale.getD 1 * propVal.getD 0)) with
      | nil => simp [hq]
      | cons z zs =>
        simp only [List.getLast?_cons_cons]
        obtain ⟨m, hm2⟩ := Option.isSome_iff_exists.mp
          (List.getLast?_isSome.mpr (List.cons_ne_nil z zs))
        simp [hm2]
    · rw [List.filter_cons_of_neg (by simpa using hq)]
      simp [hq]

/-- C7 (amended): `range_dispatch` selects the model of the **last entry
in list order** whose threshold is at most the scaled value (the fallback
when none qualifies); when the entries are listed in ascending threshold
order — the usual shape, and the shape of the claim examples — that last
qualifying entry also carries the maximal qualifying threshold. -/
theorem c7_range_dispatch_last_qualifying (scale : Option ℚ) (entries : List (ℚ × String))
    (fallback : Option String) (propVal : Option ℚ) :
    (rangeDispatch scale entries fallback propVal =
      match (entries.filter fun e => decide (e.1 ≤ scale.getD 1 * propVal.getD 0)).getLast? with
      | some e => some e.2
      | none => fallback) ∧
    (entries.Pairwise (fun a b => a.1 ≤ b.1) →
      ∀ e, e ∈ entries → e.1 ≤ scale.getD 1 * propVal.getD 0 →
      ∃ emax,
        emax ∈ entries ∧
        rangeDispatch scale entries fallback propVal = some emax.2 ∧
        emax.1 ≤ scale.getD 1 * propVal.getD 0 ∧
        ∀ e2 ∈ entries, e2.1 ≤ scale.getD 1 * propVal.getD 0 → e2.1 ≤ emax.1) := by
  refine ⟨rangeDispatch_eq_last_filter scale entries fallback propVal, ?_⟩
  intro hsort e he hqe
  have hmemf : e ∈ entries.filter fun x => decide (x.1 ≤ scale.getD 1 * propVal.getD 0) :=
    List.mem_filter.mpr ⟨he, by simpa using hqe⟩
  have hne : (entries.filter fun x => decide (x.1 ≤ scale.getD 1 * propVal.getD 0)) ≠ [] :=
    List.ne_nil_of_mem hmemf
  obtain ⟨emax, hlast⟩ := Option.isSome_iff_exists.mp (List.getLast?_isSome.mpr hne)
  refine ⟨emax, ?_, ?_, ?_, ?_⟩
  · exact (List.mem_filter.mp (List.mem_of_mem_getLast? hlast)).1
  · rw [rangeDispatch_eq_last_filter scale entries fallback propVal, hlast]
  · simpa using (List.mem_filter.mp (List.mem_of_mem_getLast? hlast)).2
  · intro e2 he2 hq2
    have hm2 : e2 ∈ entries.filter fun x => decide (x.1 ≤ scale.getD 1 * propVal.getD 0) :=
      List.mem_filter.mpr ⟨he2, by simpa using hq2⟩
    exact pairwise_le_getLast _ emax (hsort.filter _) hlast e2 hm2

/-- Supporting evaluation: the claim examples hold in the ascending order
they are given in — thresholds `[(0.25, A), (0.75, B)]`, scale 1: value
0.5 selects A, value 0.8 selects B, value −1 falls back. -/
theorem rangeDispatch_claim_examples :
    rangeDispatch (some 1) [(1/4, "A"), (3/4, "B")] (some "F") (some (1/2)) = some "A" ∧
    rangeDispatch (some 1) [(1/4, "A"), (3/4, "B")] (some "F") (some (8/10)) = some "B" ∧
    rangeDispatch (some 1) [(1/4, "A"), (3/4, "B")] (some "F") (some (-1)) = some "F" := by
  refine ⟨?_, ?_, ?_⟩ <;> norm_num [rangeDispatch, Option.getD]

/-- C7 counterexample to the claim as stated: the claim picks the entry
with the **highest** qualifying threshold "for every ordering of the
entries list", but with entries `[(3, B), (1, A)]` (scale absent, value
4) both thresholds qualify, the highest one carries B, and the code
returns A — the loop keeps the **last listed** qualifying entry. -/
theorem c7_counterexample :
    rangeDispatch none [(3, "B"), (1, "A")] (some "F") (some 4) = some "A" ∧
    (3 : ℚ) ≤ (none : Option ℚ).getD 1 * (some (4:ℚ)).getD 0 ∧
    (1 : ℚ) < 3 ∧ ("A" : String) ≠ "B" := by
  refine ⟨?_, by norm_num [Option.getD], by norm_num, by decide⟩
  norm_num [rangeDispatch, Option.getD]

/-- Witness for `c7_range_dispatch_last_qualifying` at entries
`[(0, A), (3, B)]` (ascending), scale and value absent (scaled value
`1 * 0 = 0`): threshold 0 qualifies and the theorem yields the maximal
qualifying entry. -/
theorem c7_range_dispatch_last_qualifying_witness :
    List.Pairwise (fun (a b : ℚ × String) => a.1 ≤ b.1) [((0:ℚ), "A"), (3, "B")] ∧
    (∃ emax,
      emax ∈ [((0:ℚ), "A"), (3, "B")] ∧
      rangeDispatch none [((0:ℚ), "A"), (3, "B")] (some "F") none = some emax.2 ∧
      emax.1 ≤ (none : Option ℚ).getD 1 * (none : Option ℚ).getD 0 ∧
      ∀ e2 ∈ [((0:ℚ), "A"), (3, "B")],
        e2.1 ≤ (none : Option ℚ).getD 1 * (none : Option ℚ).getD 0 → e2.1 ≤ emax.1) := by
  refine ⟨by decide, ?_⟩
  exact (c7_range_dispatch_last_qualifying none [((0:ℚ), "A"), (3, "B")] (some "F") none).2
    (by decide) ((0:ℚ), "A") (by simp) (by simp)

/-! ## `parseItemDefinition`: literal tint resolution (C9)

The tint loop of `parseItemDefinition` (blockmodel-utils.js:404-423)
first diverts `type === "grass"` tints to the biome colormap; every other
tint spec takes the literal branch modelled here, which only reads the
`value` and `default` fields.
-/

/-- The digits of `n` in base 16, most significant first, no leading
zeros (`"0"` for 0): JS `Number.prototype.toString(16)` for a Uint32,
lowercase.  Structural fuel recursion (the fuel `n + 1` always
suffices). -/
def hexCharsAux : Nat → Nat → List Char → List Char
  | 0, _, acc => acc
  | fuel + 1, n, acc =>
    let d := Nat.digitChar (n % 16)
    if n / 16 = 0 then d :: acc else hexCharsAux fuel (n / 16) (d :: acc)

/-- JS `n.toString(16)` as a character list. -/
def hexChars (n : Nat) : List Char := hexCharsAux (n + 1) n []

/-- JS `String.prototype.padStart(len, "0")`. -/
def padZeros (len : Nat) (l : List Char) : List Char :=
  List.replicate (len - l.length) '0' ++ l

/-- Translation of the literal tint formatting
`"#" + ((tint.value ?? tint.default) >>> 0).toString(16).padStart(8, "0").slice(2)`
(blockmodel-utils.js:413).  `>>> 0` is ToUint32: reduction of the
(integral) JS number modulo 2^32. -/
def jsHex32 (v : Int) : String :=
  String.mk ((padZeros 8 (hexChars (v % (2 ^ 32)).toNat)).drop 2)

/-- An item tint spec as the literal branch sees it: the optional integer
`value` and `default` fields. -/
structure TintSpec where
  value : Option Int
  default : Option Int
deriving DecidableEq

/-- JS truthiness of an optional integer field. -/
def truthyIntOpt : Option Int → Bool
  | some n => !(n == 0)
  | none => false

/-- Translation of the literal tint branch of `parseItemDefinition`
(blockmodel-utils.js:412-416): `tint.value || tint.default` guards the
hex formatting of `tint.value ?? tint.default`; otherwise the tint
resolves to opaque white. -/
def resolveTintSpec (t : TintSpec) : String :=
  if truthyIntOpt t.value || truthyIntOpt t.default then
    "#" ++ jsHex32 (t.value.getD (t.default.getD 0))
  else "#FFFFFF"

/-- Decoded value of a lowercase hex digit (claim-side). -/
def hexDigitVal (c : Char) : Nat :=
  if c.toNat ≤ 57 then c.toNat - 48 else c.toNat - 87

/-- A lowercase hex digit character (claim-side): `0`-`9` or `a`-`f`. -/
def isHexDigit (c : Char) : Bool :=
  (48 ≤ c.toNat && c.toNat ≤ 57) || (97 ≤ c.toNat && c.toNat ≤ 102)

/-- Decoded value of a lowercase hex string (claim-side). -/
def hexVal (l : List Char) : Nat := l.foldl (fun acc c => 16 * acc + hexDigitVal c) 0

/-- Folding the hex decoder from accumulator `a`. -/
theorem hexVal_foldl_acc (l : List Char) (a : Nat) :
    l.foldl (fun acc c => 16 * acc + hexDigitVal c) a = a * 16 ^ l.length + hexVal l := by
  induction l generalizing a with
  | nil => simp [hexVal]
  | cons c rest ih =>
    rw [List.foldl_cons]
    rw [ih]
    have h2 : hexVal (c :: rest) = hexDigitVal c * 16 ^ rest.length + hexVal rest := by
      unfold hexVal
      rw [List.foldl_cons]
      rw [ih]
      simp [hexVal]
    rw [h2]
    simp [List.length_cons]
    ring

/-- The hex decoder over an append. -/
theorem hexVal_append (l1 l2 : List Char) :
    hexVal (l1 ++ l2) = hexVal l1 * 16 ^ l2.length + hexVal l2 := by
  unfold hexVal
  rw [List.foldl_append]
  exact hexVal_foldl_acc l2 _

/-- Left zero padding does not change the decoded value. -/
theorem hexVal_padZeros (k : Nat) (l : List Char) : hexVal (padZeros k l) = hexVal l := by
  unfold padZeros
  rw [hexVal_append]
  have hz : hexVal (List.replicate (k - l.length) '0') = 0 := by
    induction (k - l.length) with
    | zero => rfl
    | succ n ih =>
      rw [List.replicate_succ]
      unfold hexVal at ih ⊢
      rw [List.foldl_cons]
      simpa [hexDigitVal] using ih
  rw [hz]
  simp

/-- `Nat.digitChar` inverts through the decoder on hex digits. -/
theorem hexDigitVal_digitChar (d : Nat) (hd : d < 16) :
    hexDigitVal (Nat.digitChar d) = d ∧ isHexDigit (Nat.digitChar d) = true := by
  revert hd
  revert d
  decide

/-- A valid hex string decodes below `16 ^ length`. -/
theorem hexVal_lt_of_valid (l : List Char) (hv : ∀ c ∈ l, isHexDigit c = true) :
    hexVal l < 16 ^ l.length := by
  induction l with
  | nil => simp [hexVal]
  | cons c rest ih =>
    have hc : isHexDigit c = true := hv c (List.mem_cons_self _ _)
    have hcv : hexDigitVal c < 16 := by
      unfold isHexDigit at hc
      unfold hexDigitVal
      simp only [Bool.or_eq_true, Bool.and_eq_true, decide_eq_true_eq] at hc
      rcases hc with ⟨hge, hle⟩ | ⟨hge, hle⟩
      · simp [hle]
        omega
      · have hnot : ¬(c.toNat ≤ 57) := by omega
        simp [hnot]
        omega
    have h2 : hexVal (c :: rest) = hexDigitVal c * 16 ^ rest.length + hexVal rest := by
      unfold hexVal
      rw [List.foldl_cons]
      rw [hexVal_foldl_acc]
      simp [hexVal]
    rw [h2]
    have hr := ih (fun c2 hc2 => hv c2 (List.mem_cons_of_mem _ hc2))
    calc hexDigitVal c * 16 ^ rest.length + hexVal rest
        < hexDigitVal c * 16 ^ rest.length + 16 ^ rest.length := by omega
      _ = (hexDigitVal c + 1) * 16 ^ rest.length := by ring
      _ ≤ 16 * 16 ^ rest.length := by
          have : hexDigitVal c + 1 ≤ 16 := hcv
          exact Nat.mul_le_mul_right _ this
      _ = 16 ^ (c :: rest).length := by
          simp [List.length_cons]
          ring

/-- The accumulator of `hexCharsAux` is a suffix: digits are produced in
front of it. -/
theorem hexCharsAux_acc (f : Nat) : ∀ (n : Nat) (acc : List Char),
    hexCharsAux (f + 1) n acc = hexCharsAux (f + 1) n [] ++ acc := by
  induction f with
  | zero =>
    intro n acc
    unfold hexCharsAux
    by_cases hdiv : n / 16 = 0 <;> simp [hexCharsAux, hdiv]
  | succ g ih =>
    intro n acc
    show hexCharsAux (g + 1 + 1) n acc = hexCharsAux (g + 1 + 1) n [] ++ acc
    unfold hexCharsAux
    by_cases hdiv : n / 16 = 0
    · simp [hdiv]
    · simp only [hdiv, if_false]
      rw [ih (n / 16) (Nat.digitChar (n % 16) :: acc)]
      rw [ih (n / 16) [Nat.digitChar (n % 16)]]
      simp

/-- Fuel independence of `hexCharsAux`: any sufficient fuel produces the
same digit list. -/
theorem hexCharsAux_fuel (f1 : Nat) : ∀ (f2 n : Nat),
    n < 16 ^ (f1 + 1) → n < 16 ^ (f2 + 1) →
    hexCharsAux (f1 + 1) n [] = hexCharsAux (f2 + 1) n [] := by
  induction f1 with
  | zero =>
    intro f2 n h1 h2
    have hn : n < 16 := by simpa using h1
    have hdiv : n / 16 = 0 := Nat.div_eq_of_lt hn
    unfold hexCharsAux
    cases f2 with
    | zero => rfl
    | succ m => simp [hdiv]
  | succ g ih =>
    intro f2 n h1 h2
    by_cases hdiv : n / 16 = 0
    · cases f2 with
      | zero =>
        have hn : n < 16 := by simpa using h2
        unfold hexCharsAux
        simp [hdiv]
      | succ m =>
        unfold hexCharsAux
        simp [hdiv]
    · have hge : 16 ≤ n := by
        by_contra hlt
        exact hdiv (Nat.div_eq_of_lt (by omega))
      have hd1 : n / 16 < 16 ^ (g + 1) := by
        rw [Nat.div_lt_iff_lt_mul (by norm_num)]
        calc n < 16 ^ (g + 1 + 1) := h1
          _ = 16 ^ (g + 1) * 16 := by ring
      obtain ⟨h2p, hf2⟩ : ∃ h2p, f2 = h2p + 1 := by
        cases f2 with
        | zero =>
          exfalso
          have : n < 16 := by simpa using h2
          omega
        | succ m => exact ⟨m, rfl⟩
      subst hf2
      have hd2 : n / 16 < 16 ^ (h2p + 1) := by
        rw [Nat.div_lt_iff_lt_mul (by norm_num)]
        calc n < 16 ^ (h2p + 1 + 1) := h2
          _ = 16 ^ (h2p + 1) * 16 := by ring
      show hexCharsAux (g + 1 + 1) n [] = hexCharsAux (h2p + 1 + 1) n []
      unfold hexCharsAux
      simp only [hdiv, if_false]
      rw [hexCharsAux_acc g (n / 16) [Nat.digitChar (n % 16)]]
      rw [hexCharsAux_acc h2p (n / 16) [Nat.digitChar (n % 16)]]
      rw [ih h2p (n / 16) hd1 hd2]

/-- Every `n` is below `16 ^ (n + 1)`. -/
theorem lt_sixteen_pow (n : Nat) : n < 16 ^ (n + 1) := by
  calc n < 2 ^ n * 16 := by
        have h2 : n < 2 ^ n := Nat.lt_two_pow n
        have : 1 * (2:Nat) ^ n ≤ 16 * 2 ^ n := Nat.mul_le_mul_right _ (by norm_num)
        omega
    _ ≤ 16 ^ n * 16 := by
        have : (2:Nat) ^ n ≤ 16 ^ n := Nat.pow_le_pow_left (by norm_num) n
        omega
    _ = 16 ^ (n + 1) := by ring

/-- Unfolding equation for `hexChars`: last digit split. -/
theorem hexChars_unfold (n : Nat) :
    hexChars n =
      if n / 16 = 0 then [Nat.digitChar (n % 16)]
      else hexChars (n / 16) ++ [Nat.digitChar (n % 16)] := by
  by_cases hdiv : n / 16 = 0
  · unfold hexChars hexCharsAux
    simp [hdiv]
  · have hge : 16 ≤ n := by
      by_contra hlt
      exact hdiv (Nat.div_eq_of_lt (by omega))
    obtain ⟨m, hm⟩ : ∃ m, n = m + 1 := ⟨n - 1, by omega⟩
    rw [if_neg hdiv]
    have hstep : hexChars n = hexCharsAux (m + 1) (n / 16) [Nat.digitChar (n % 16)] := by
      unfold hexChars
      conv =>
        lhs
        rw [hm]
      show hexCharsAux (m + 1 + 1) (m + 1) [] = _
      conv =>
        lhs
        unfold hexCharsAux
      rw [← hm]
      simp only [hdiv, if_false]
    rw [hstep]
    rw [hexCharsAux_acc m (n / 16) [Nat.digitChar (n % 16)]]
    have hlt : n / 16 < n := Nat.div_lt_self (by omega) (by norm_num)
    have hd1 : n / 16 < 16 ^ (m + 1) := by
      have h2 := lt_sixteen_pow m
      omega
    rw [hexCharsAux_fuel m (n / 16) (n / 16) hd1 (lt_sixteen_pow _)]
    rfl

/-- Correctness of `hexChars`: the digits decode back to the number and
are valid lowercase hex digits. -/
theorem hexChars_spec (n : Nat) :
    hexVal (hexChars n) = n ∧ (∀ c ∈ hexChars n, isHexDigit c = true) := by
  induction n using Nat.strong_induction_on with
  | _ n ih =>
    rw [hexChars_unfold n]
    by_cases hdiv : n / 16 = 0
    · have hn : n < 16 := by
        by_contra hge
        have : 1 ≤ n / 16 := Nat.one_le_div_iff (by norm_num) |>.mpr (by omega)
        omega
      have hmod : n % 16 = n := Nat.mod_eq_of_lt hn
      have hd := hexDigitVal_digitChar (n % 16) (Nat.mod_lt _ (by norm_num))
      simp only [hdiv, if_true]
      constructor
      · have h1 := hd.1
        rw [hmod] at h1
        simp [hexVal, h1, hmod]
      · intro c hc
        simp at hc
        rw [hc]
        rw [hmod]
        rw [hmod] at hd
        exact hd.2
    · simp only [hdiv, if_false]
      have hlt : n / 16 < n := Nat.div_lt_self (by
        by_contra h0
        exact hdiv (by omega)) (by norm_num)
      obtain ⟨ihv, ihd⟩ := ih (n / 16) hlt
      have hd := hexDigitVal_digitChar (n % 16) (Nat.mod_lt _ (by norm_num))
      constructor
      · rw [hexVal_append]
        have h1 : hexVal [Nat.digitChar (n % 16)] = n % 16 := by
          simp [hexVal, hd.1]
        rw [h1, ihv]
        simp only [List.length_cons, List.length_nil, pow_one]
        omega
      · intro c hc
        rcases List.mem_append.mp hc with h | h
        · exact ihd c h
        · simp at h
          rw [h]
          exact hd.2

/-- Length bound for `hexChars`. -/
theorem hexChars_length_le (k : Nat) : ∀ n, 1 ≤ k → n < 16 ^ k → (hexChars n).length ≤ k := by
  induction k with
  | zero => intro n h1; omega
  | succ m ih =>
    intro n _ hn
    rw [hexChars_unfold n]
    by_cases hdiv : n / 16 = 0
    · simp [hdiv]
    · simp only [hdiv, if_false, List.length_append, List.length_cons, List.length_nil]
      have hm1 : 1 ≤ m := by
        by_contra h0
        have hm0 : m = 0 := by omega
        subst hm0
        have : n < 16 := by simpa using hn
        exact hdiv (Nat.div_eq_of_lt this)
      have hd : n / 16 < 16 ^ m := by
        rw [Nat.div_lt_iff_lt_mul (by norm_num)]
        calc n < 16 ^ (m + 1) := hn
          _ = 16 ^ m * 16 := by ring
      have := ih (n / 16) hm1 hd
      omega

/-- The formatting step of the literal tint branch: for a Uint32 `u`, the
emitted six characters are valid lowercase hex and decode to the low 24
bits `u % 2^24` — the alpha byte is dropped. -/
theorem jsHex32_low24 (u : Nat) (hu : u < 2 ^ 32) :
    ((padZeros 8 (hexChars u)).drop 2).length = 6 ∧
    (∀ c ∈ (padZeros 8 (hexChars u)).drop 2, isHexDigit c = true) ∧
    hexVal ((padZeros 8 (hexChars u)).drop 2) = u % 2 ^ 24 := by
  have hlen8 : (padZeros 8 (hexChars u)).length = 8 := by
    unfold padZeros
    have hle : (hexChars u).length ≤ 8 := by
      apply hexChars_length_le 8 u (by norm_num)
      calc u < 2 ^ 32 := hu
        _ = 16 ^ 8 := by norm_num
    simp [List.length_append, List.length_replicate]
    omega
  have hvalid : ∀ c ∈ padZeros 8 (hexChars u), isHexDigit c = true := by
    intro c hc
    unfold padZeros at hc
    rcases List.mem_append.mp hc with h | h
    · have := List.eq_of_mem_replicate h
      rw [this]
      decide
    · exact (hexChars_spec u).2 c h
  have hval8 : hexVal (padZeros 8 (hexChars u)) = u := by
    rw [hexVal_padZeros]
    exact (hexChars_spec u).1
  have hsplit : padZeros 8 (hexChars u) =
      (padZeros 8 (hexChars u)).take 2 ++ (padZeros 8 (hexChars u)).drop 2 :=
    (List.take_append_drop 2 _).symm
  have hlen2 : ((padZeros 8 (hexChars u)).take 2).length = 2 := by
    rw [List.length_take]
    omega
  have hlen6 : ((padZeros 8 (hexChars u)).drop 2).length = 6 := by
    rw [List.length_drop]
    omega
  have hvalid6 : ∀ c ∈ (padZeros 8 (hexChars u)).drop 2, isHexDigit c = true :=
    fun c hc => hvalid c (List.mem_of_mem_drop hc)
  refine ⟨hlen6, hvalid6, ?_⟩
  have hdec : u = hexVal ((padZeros 8 (hexChars u)).take 2) * 16 ^ 6 +
      hexVal ((padZeros 8 (hexChars u)).drop 2) := by
    conv =>
      lhs
      rw [← hval8, hsplit]
    rw [hexVal_append, hlen6]
  have hlt6 : hexVal ((padZeros 8 (hexChars u)).drop 2) < 16 ^ 6 := by
    have := hexVal_lt_of_valid _ hvalid6
    rwa [hlen6] at this
  have h24 : (16:Nat) ^ 6 = 2 ^ 24 := by norm_num
  have hmod2 : (hexVal ((padZeros 8 (hexChars u)).take 2) * 16 ^ 6 +
      hexVal ((padZeros 8 (hexChars u)).drop 2)) % 16 ^ 6 =
      hexVal ((padZeros 8 (hexChars u)).drop 2) := by
    rw [Nat.add_comm, Nat.add_mul_mod_self_right]
    exact Nat.mod_eq_of_lt hlt6
  calc hexVal ((padZeros 8 (hexChars u)).drop 2)
      = (hexVal ((padZeros 8 (hexChars u)).take 2) * 16 ^ 6 +
          hexVal ((padZeros 8 (hexChars u)).drop 2)) % 16 ^ 6 := hmod2.symm
    _ = u % 16 ^ 6 := by rw [← hdec]
    _ = u % 2 ^ 24 := by rw [h24]

/-- C9 (amended): a tint spec whose `value` or `default` field holds a
**non-zero** integer resolves to `"#"` followed by six lowercase hex
digits that decode to the low 24 bits of `(value ?? default)` taken
modulo 2^32 (the alpha byte dropped); a spec whose fields are absent
**or zero** resolves to opaque white `"#FFFFFF"`. -/
theorem c9_tint_literal_low24 (t : TintSpec) :
    if truthyIntOpt t.value || truthyIntOpt t.default then
      ∃ l : List Char,
        resolveTintSpec t = "#" ++ String.mk l ∧
        l.length = 6 ∧
        (∀ c ∈ l, isHexDigit c = true) ∧
        hexVal l = ((t.value.getD (t.default.getD 0)) % (2:Int) ^ 32).toNat % 2 ^ 24
    else resolveTintSpec t = "#FFFFFF" := by
  by_cases hg : (truthyIntOpt t.value || truthyIntOpt t.default) = true
  · rw [if_pos hg]
    refine ⟨(padZeros 8 (hexChars ((t.value.getD (t.default.getD 0)) % (2:Int) ^ 32).toNat)).drop 2,
      ?_, ?_⟩
    · unfold resolveTintSpec
      rw [if_pos hg]
      rfl
    · have hnn : (0:Int) ≤ (t.value.getD (t.default.getD 0)) % (2:Int) ^ 32 :=
        Int.emod_nonneg _ (by norm_num)
      have hlt : (t.value.getD (t.default.getD 0)) % (2:Int) ^ 32 < (2:Int) ^ 32 :=
        Int.emod_lt_of_pos _ (by norm_num)
      have hu : ((t.value.getD (t.default.getD 0)) % (2:Int) ^ 32).toNat < 2 ^ 32 := by
        omega
      exact jsHex32_low24 _ hu
  · rw [if_neg hg]
    unfold resolveTintSpec
    rw [if_neg hg]

/-- Supporting evaluation: a negative 32-bit ARGB literal has its alpha
byte dropped: `0xFF000000` (stored as the signed value −16777216)
formats as `"#000000"`, and `0xFFFF0000` (−65536) as `"#ff0000"`. -/
theorem resolveTintSpec_alpha_dropped :
    resolveTintSpec ⟨some (-16777216), none⟩ = "#000000" ∧
    resolveTintSpec ⟨some (-65536), none⟩ = "#ff0000" := by
  exact ⟨by decide, by decide⟩

/-- C9 counterexample to the claim as stated: the spec
`{value: 0}` carries the literal ARGB integer 0, whose low 24 bits give
`"#000000"`, but the truthiness guard `tint.value || tint.default`
ignores a zero value and the code resolves it to opaque white. -/
theorem c9_counterexample :
    resolveTintSpec ⟨some 0, none⟩ = "#FFFFFF" ∧ ("#FFFFFF" : String) ≠ "#000000" := by
  exact ⟨by decide, by decide⟩

/-! ## `parseBlockstate`: variant scoring and selection (C2)

JS scores here are IEEE doubles taking only the values 0.1 (the
empty-key sentinel) and sums of small integers — all exact, and every
comparison the sort performs is between such values.  The embedding
represents a score `s` by the integer `10 * s`, which preserves
equality and order exactly (the sentinel becomes 1, a matched term
`domainLength − matchIndex` becomes `10 * (domainLength − matchIndex)`).
-/

/-- A context/default value: a scalar (already stringified, as
`toString` leaves it) or a ranked list of alternatives. -/
inductive CtxVal where
  | atom (s : String)
  | rlist (vs : List String)
deriving DecidableEq

/-- The raw lookup
`data[k] ?? getUniqueDefault(blockstate)[k] ?? DEFAULT_BLOCKSTATES[k]`
(blockmodel-utils.js:209): the caller context, then the block-specific
default table already selected for this blockstate, then the global
default table. -/
def rawOf (data unique dflt : List (String × CtxVal)) (k : String) : Option CtxVal :=
  match alookup k data with
  | some v => some v
  | none =>
    match alookup k unique with
    | some v => some v
    | none => alookup k dflt

/-- `Array.isArray(raw) ? raw.map(toString) : [raw?.toString()]`
(blockmodel-utils.js:210): the candidate list a term is matched against;
an absent property contributes the single candidate `undefined`. -/
def actualsOf (raw : Option CtxVal) : List (Option String) :=
  match raw with
  | some (CtxVal.rlist l) => l.map some
  | some (CtxVal.atom s) => [some s]
  | none => [none]

/-- Score (times 10) contributed by one `prop=value` term
(blockmodel-utils.js:211-213): `actuals.indexOf(v)` with strict JS
equality; a miss contributes 0 without disqualifying the key. -/
def termScore10 (raw : Option CtxVal) (v : Option String) : Int :=
  let actuals := actualsOf raw
  match actuals.findIdx? (fun a => a == v) with
  | some i => 10 * ((actuals.length : Int) - i)
  | none => 0

/-- Score (times 10) of one variant key (blockmodel-utils.js:201-215):
the empty key scores the fixed sentinel 0.1; otherwise the key splits on
`","`, each part trims and splits on `"="`, and the term scores add. -/
def variantKeyScore10 (data unique dflt : List (String × CtxVal)) (key : String) : Int :=
  if key = "" then 1
  else
    ((jsSplit ',' key).map jsTrim).foldl
      (fun acc part =>
        let comps := jsSplit '=' part
        let k := comps.headD ""
        let v := comps[1]?
        acc + termScore10 (rawOf data unique dflt k) v)
      0

/-- One model entry of a blockstate variant or multipart apply. -/
structure BsEntry where
  model : Option String
  x : Option Int
  y : Option Int
  z : Option Int
  uvlock : Bool
  weight : Option Int
deriving DecidableEq

/-- A variant value: a single entry or a weighted list. -/
inductive VariantVal where
  | one (e : BsEntry)
  | many (es : List BsEntry)
deriving DecidableEq

/-- `Array.isArray(value) ? value[0] : value` (blockmodel-utils.js:217):
the designated entry of a variant value; an empty list yields
`undefined` and the variant is dropped by the `filter(e => e.model)`
that follows (the wrapper object is truthy exactly when the entry
exists). -/
def entryOf : VariantVal → Option BsEntry
  | VariantVal.one e => some e
  | VariantVal.many es => es.head?

/-- A scored variant candidate (`{score, model}` of the source, plus the
key it came from, which the source closes over). -/
structure ScoredVariant where
  score10 : Int
  key : String
  model : BsEntry
deriving DecidableEq

/-- The scored candidate list (blockmodel-utils.js:201-219). -/
def scoredVariants (data unique dflt : List (String × CtxVal))
    (variants : List (String × VariantVal)) : List ScoredVariant :=
  variants.filterMap (fun kv =>
    match entryOf kv.2 with
    | some e => some ⟨variantKeyScore10 data unique dflt kv.1, kv.1, e⟩
    | none => none)

/-- The stable descending comparison `(a, b) => b.score - a.score` of
the variant sort. -/
def variantGE (a b : ScoredVariant) : Prop := b.score10 ≤ a.score10

instance : DecidableRel variantGE := fun a b => Int.decLe b.score10 a.score10

instance : IsTotal ScoredVariant variantGE :=
  ⟨fun a b => le_total b.score10 a.score10⟩

instance : IsTrans ScoredVariant variantGE :=
  ⟨fun _ _ _ hab hbc => le_trans hbc hab⟩

/-- The variant selection (blockmodel-utils.js:221-224): stable sort by
score descending, first element (the source pushes its `.model`). -/
def selectVariantEntry (data unique dflt : List (String × CtxVal))
    (variants : List (String × VariantVal)) : Option ScoredVariant :=
  (List.insertionSort variantGE (scoredVariants data unique dflt variants)).head?

/-- Fields of a member of the scored candidate list. -/
theorem mem_scoredVariants (data unique dflt : List (String × CtxVal))
    (variants : List (String × VariantVal)) (e : ScoredVariant)
    (he : e ∈ scoredVariants data unique dflt variants) :
    e.score10 = variantKeyScore10 data unique dflt e.key ∧
    ∃ v, (e.key, v) ∈ variants ∧ entryOf v = some e.model := by
  unfold scoredVariants at he
  obtain ⟨kv, hkv, hf⟩ := List.mem_filterMap.mp he
  cases hent : entryOf kv.2 with
  | none => rw [hent] at hf; exact absurd hf (by simp)
  | some ent =>
    rw [hent] at hf
    simp at hf
    refine ⟨?_, kv.2, ?_, ?_⟩
    · rw [← hf]
    · rw [← hf]
      exact hkv
    · rw [← hf]
      exact hent

/-- C2 (amended): the selected variant is a candidate whose score is
maximal **among the variants that yield an entry** (a non-list value, or
a non-empty list — an empty list is filtered out before the sort), its
score is the score of its key, and the empty key can only be selected
when no other candidate key scores above the 0.1 sentinel. -/
theorem c2_variant_max_score (data unique dflt : List (String × CtxVal))
    (variants : List (String × VariantVal)) (chosen : ScoredVariant)
    (h : selectVariantEntry data unique dflt variants = some chosen) :
    chosen ∈ scoredVariants data unique dflt variants ∧
    (∀ e ∈ scoredVariants data unique dflt variants, e.score10 ≤ chosen.score10) ∧
    chosen.score10 = variantKeyScore10 data unique dflt chosen.key ∧
    (chosen.key = "" →
      ∀ e ∈ scoredVariants data unique dflt variants, e.key ≠ "" → e.score10 ≤ 1) := by
  unfold selectVariantEntry at h
  have hperm := List.perm_insertionSort variantGE (scoredVariants data unique dflt variants)
  have hsorted := List.sorted_insertionSort variantGE (scoredVariants data unique dflt variants)
  cases hs : List.insertionSort variantGE (scoredVariants data unique dflt variants) with
  | nil => rw [hs] at h; exact absurd h (by simp)
  | cons hd tl =>
    rw [hs] at h
    have hc : chosen = hd := by
      have : hd = chosen := by simpa using h
      exact this.symm
    rw [hc]
    rw [hs] at hperm hsorted
    have hmem : hd ∈ scoredVariants data unique dflt variants :=
      hperm.mem_iff.mp (List.mem_cons_self _ _)
    have hmax : ∀ e ∈ scoredVariants data unique dflt variants, e.score10 ≤ hd.score10 := by
      intro e he
      have : e ∈ hd :: tl := hperm.mem_iff.mpr he
      rcases List.mem_cons.mp this with heq | htl
      · rw [heq]
      · exact List.rel_of_sorted_cons hsorted e htl
    have hself := mem_scoredVariants data unique dflt variants hd hmem
    refine ⟨hmem, hmax, hself.1, ?_⟩
    intro hkey e he _
    have h1 : hd.score10 = 1 := by
      rw [hself.1, hkey]
      rfl
    have := hmax e he
    omega

/-- Witness for `c2_variant_max_score`: context `a = "b"`; variants
`{"": E0, "a=b": M}`; the key `a=b` scores 1 (times 10) and wins over
the empty-key sentinel 0.1. -/
theorem c2_variant_max_score_witness :
    selectVariantEntry [("a", CtxVal.atom "b")] [] []
        [("", VariantVal.one ⟨some "e0", none, none, none, false, none⟩),
         ("a=b", VariantVal.one ⟨some "m", none, none, none, false, none⟩)] =
      some ⟨10, "a=b", ⟨some "m", none, none, none, false, none⟩⟩ ∧
    (∀ e ∈ scoredVariants [("a", CtxVal.atom "b")] [] []
        [("", VariantVal.one ⟨some "e0", none, none, none, false, none⟩),
         ("a=b", VariantVal.one ⟨some "m", none, none, none, false, none⟩)],
      e.score10 ≤ (10:Int)) := by
  constructor
  · decide
  · intro e he
    have := (c2_variant_max_score [("a", CtxVal.atom "b")] [] []
      [("", VariantVal.one ⟨some "e0", none, none, none, false, none⟩),
       ("a=b", VariantVal.one ⟨some "m", none, none, none, false, none⟩)]
      ⟨10, "a=b", ⟨some "m", none, none, none, false, none⟩⟩ (by decide)).2.1 e he
    exact this

/-- C2 counterexample to the claim as stated: variants
`{"": [], "a=b": M}` with property `a` absent everywhere.  The empty key
scores 0.1, `a=b` scores 0, so the claim requires the empty-key variant
(the key of maximal total score) to be selected — but its value is an
empty list, it is filtered out, and the zero-scoring `a=b` model is
returned instead. -/
theorem c2_counterexample :
    selectVariantEntry [] [] []
        [("", VariantVal.many []),
         ("a=b", VariantVal.one ⟨some "m", none, none, none, false, none⟩)] =
      some ⟨0, "a=b", ⟨some "m", none, none, none, false, none⟩⟩ ∧
    variantKeyScore10 [] [] [] "" = 1 ∧ (0 : Int) < 1 := by
  exact ⟨by decide, by decide, by decide⟩

/-! ## `parseBlockstate`: multipart scoring, ordering, acceptance (C3) -/

/-- A bare `when` condition: property name to `"|"`-delimited allowed
values. -/
abbrev MpCond := List (String × String)

/-- The `when` clause of a multipart part: bare map, `{OR: [...]}` or
`{AND: [...]}` (`const conds = when.OR ?? when.AND ?? [when]`). -/
inductive MpWhen where
  | bare (c : MpCond)
  | orW (cs : List MpCond)
  | andW (cs : List MpCond)
deriving DecidableEq

/-- A multipart part: optional `when`, optional `apply` (single entry or
list). -/
structure MPart where
  when : Option MpWhen
  apply : Option VariantVal
deriving DecidableEq

/-- JS `Set.prototype.add` on the `ranges` set (insertion-ordered). -/
def insertRange (k : String) (ranges : List String) : List String :=
  if ranges.contains k then ranges else ranges ++ [k]

/-- Translation of the `Object.entries(cond).every(...)` body
(blockmodel-utils.js:241-254), which short-circuits on the first
non-matching field but keeps the score already added and the list-valued
properties already recorded into `ranges`.  Returns
`(matched, score, ranges)`. -/
def evalCondEntries (data unique dflt : List (String × CtxVal)) :
    List (String × String) → Nat → List String → Bool × Nat × List String
  | [], score, ranges => (true, score, ranges)
  | (k, v) :: rest, score, ranges =>
    let allowed := jsSplit '|' v
    let raw := rawOf data unique dflt k
    let ranges2 := match raw with
      | some (CtxVal.rlist _) => insertRange k ranges
      | _ => ranges
    let actuals := actualsOf raw
    match actuals.findIdx? (fun a => allowed.contains (a.getD "none")) with
    | some i => evalCondEntries data unique dflt rest (score + (actuals.length - i)) ranges2
    | none => (false, score, ranges2)

/-- Translation of the `for (const cond of conds)` loop
(blockmodel-utils.js:235-270): thread score/ranges/the `values` record
over the groups; a matched group merges all its fields into `values`; an
OR breaks true on the first match, an AND breaks false on the first
miss.  Returns `(match, score, ranges, values)`. -/
def evalConds (data unique dflt : List (String × CtxVal)) (isOr : Bool) :
    List MpCond → Nat → List String → List (String × String) →
    Bool × Nat × List String × List (String × String)
  | [], score, ranges, values => (!isOr, score, ranges, values)
  | cond :: rest, score, ranges, values =>
    let r := evalCondEntries data unique dflt cond score ranges
    let values2 := if r.1 then cond.foldl (fun acc e => aset e.1 e.2 acc) values else values
    if isOr then
      if r.1 then (true, r.2.1, r.2.2, values2)
      else evalConds data unique dflt isOr rest r.2.1 r.2.2 values2
    else
      if r.1 then evalConds data unique dflt isOr rest r.2.1 r.2.2 values2
      else (false, r.2.1, r.2.2, values2)

/-- A scored part (`{score, values, part, index, match}` of
blockmodel-utils.js:230,272). -/
structure ScoredPart where
  score : Nat
  values : List (String × String)
  part : MPart
  index : Nat
  matchB : Bool
deriving DecidableEq

/-- Scoring of one part (blockmodel-utils.js:228-272): a part with no
`when` matches with score 0 and no recorded values. -/
def scoreOnePart (data unique dflt : List (String × CtxVal)) (p : MPart) (index : Nat)
    (ranges : List String) : ScoredPart × List String :=
  match p.when with
  | none => (⟨0, [], p, index, true⟩, ranges)
  | some w =>
    let conds := match w with
      | MpWhen.bare c => [c]
      | MpWhen.orW cs => cs
      | MpWhen.andW cs => cs
    let isOr := match w with
      | MpWhen.orW _ => true
      | _ => false
    let r := evalConds data unique dflt isOr conds 0 ranges []
    (⟨r.2.1, r.2.2.2, p, index, r.1⟩, r.2.2.1)

/-- Score every part in order, threading the `ranges` set. -/
def scorePartsAux (data unique dflt : List (String × CtxVal)) :
    List MPart → Nat → List String → List ScoredPart × List String
  | [], _, ranges => ([], ranges)
  | p :: rest, idx, ranges =>
    let r := scoreOnePart data unique dflt p idx ranges
    let rr := scorePartsAux data unique dflt rest (idx + 1) r.2
    (r.1 :: rr.1, rr.2)

/-- The scored-part list and the final `ranges` set
(blockmodel-utils.js:226-273). -/
def scoreParts (data unique dflt : List (String × CtxVal)) (parts : List MPart) :
    List ScoredPart × List String :=
  scorePartsAux data unique dflt parts 0 []

/-- The multipart ordering `(a, b) => b.score - a.score || a.index - b.index`:
score descending, then declaration index ascending. -/
def partGE (a b : ScoredPart) : Prop :=
  b.score < a.score ∨ (b.score = a.score ∧ a.index ≤ b.index)

instance : DecidableRel partGE := fun a b =>
  inferInstanceAs (Decidable (b.score < a.score ∨ (b.score = a.score ∧ a.index ≤ b.index)))

instance : IsTotal ScoredPart partGE := by
  constructor
  intro a b
  unfold partGE
  rcases Nat.lt_trichotomy a.score b.score with h | h | h
  · right; left; omega
  · rcases Nat.le_total a.index b.index with hi | hi
    · left; right; exact ⟨h.symm, hi⟩
    · right; right; exact ⟨h, hi⟩
  · left; left; omega

instance : IsTrans ScoredPart partGE := by
  constructor
  intro a b c hab hbc
  unfold partGE at hab hbc ⊢
  rcases hab with h1 | ⟨h1, h2⟩ <;> rcases hbc with h3 | ⟨h3, h4⟩
  · left; omega
  · left; omega
  · left; omega
  · right; exact ⟨by omega, by omega⟩

/-- The entry a part contributes to the output
(`Array.isArray(part.apply) ? part.apply[0] : part.apply` followed by
`if (apply?.model) models.push(apply)`, blockmodel-utils.js:286-287). -/
def applyModelOf (p : ScoredPart) : Option BsEntry :=
  match p.part.apply with
  | none => none
  | some av =>
    match entryOf av with
    | none => none
    | some e =>
      match e.model with
      | none => none
      | some s => if s = "" then none else some e

/-- Translation of the greedy acceptance pass
(blockmodel-utils.js:275-288): reject a part when one of its recorded
bindings hits a different truthy entry of `usedKeyValues`; an accepted
part stores its bindings for the properties in `ranges` and contributes
its apply entry. -/
def acceptLoop (ranges : List String) :
    List ScoredPart → List (String × String) → List BsEntry
  | [], _ => []
  | p :: rest, used =>
    if p.values.any (fun e =>
        match alookup e.1 used with
        | some w => !(w == "") && !(w == e.2)
        | none => false) then
      acceptLoop ranges rest used
    else
      let used2 := p.values.foldl
        (fun acc e => if ranges.contains e.1 then aset e.1 e.2 acc else acc) used
      (match applyModelOf p with
       | some e => [e]
       | none => []) ++ acceptLoop ranges rest used2

/-- The whole multipart selection (blockmodel-utils.js:225-288). -/
def selectMultipart (data unique dflt : List (String × CtxVal)) (parts : List MPart) :
    List BsEntry :=
  let r := scoreParts data unique dflt parts
  let matched := r.1.filter (fun p => p.matchB)
  acceptLoop r.2 (List.insertionSort partGE matched) []

/-- Claim-side view of the acceptance state: the most recently accepted
binding of property `k`, tracked only for the properties in `ranges`. -/
def lastRangeBinding (ranges : List String) (acc : List ScoredPart) (k : String) :
    Option String :=
  if ranges.contains k then acc.reverse.findSome? (fun p => alookup k p.values) else none

/-- Claim-side conflict test: the part binds some property whose
most recent accepted binding is a different non-empty value. -/
def specConflictB (ranges : List String) (acc : List ScoredPart) (p : ScoredPart) : Bool :=
  p.values.any (fun e =>
    match lastRangeBinding ranges acc e.1 with
    | some w => !(w == "") && !(w == e.2)
    | none => false)

/-- Claim-side greedy acceptance: walk the ordered parts, keeping each
part that does not conflict with the parts already accepted. -/
def specAcceptedAux (ranges : List String) (acc : List ScoredPart) :
    List ScoredPart → List ScoredPart
  | [] => []
  | p :: rest =>
    if specConflictB ranges acc p then specAcceptedAux ranges acc rest
    else p :: specAcceptedAux ranges (acc ++ [p]) rest

/-- `aset` preserves key-uniqueness. -/
theorem nodupKeys_aset {α : Type} (k : String) (v : α) (m : List (String × α))
    (h : (m.map Prod.fst).Nodup) : (((aset k v m).map Prod.fst)).Nodup := by
  induction m with
  | nil => simp [aset]
  | cons p rest ih =>
    obtain ⟨k2, w⟩ := p
    simp only [List.map_cons, List.nodup_cons] at h
    by_cases h2 : k2 = k
    · subst h2
      simp [aset, List.nodup_cons, h.1, h.2]
    · have hrest := ih h.2
      simp only [aset, if_neg h2, List.map_cons, List.nodup_cons]
      refine ⟨?_, hrest⟩
      intro hmem
      -- k2 appears among the keys of aset k v rest: either k (no) or an old key
      have hkeys : ∀ x, x ∈ ((aset k v rest).map Prod.fst) → x = k ∨ x ∈ rest.map Prod.fst := by
        intro x hx
        clear hmem hrest ih h
        induction rest with
        | nil => simp [aset] at hx; exact Or.inl hx
        | cons q qs ihq =>
          obtain ⟨k3, w3⟩ := q
          by_cases h3 : k3 = k
          · subst h3
            simp [aset] at hx
            rcases hx with hx | hx
            · right; simp [hx]
            · right; simp [hx]
          · simp only [aset, if_neg h3, List.map_cons, List.mem_cons] at hx
            rcases hx with hx | hx
            · right; simp [hx]
            · rcases ihq hx with hx2 | hx2
              · exact Or.inl hx2
              · right; simp at hx2 ⊢; exact Or.inr hx2
      rcases hkeys k2 hmem with he | he
      · exact h2 he
      · exact h.1 he

/-- The `values` record built by a matched condition group has unique
keys. -/
theorem evalConds_values_nodup (data unique dflt : List (String × CtxVal)) (isOr : Bool) :
    ∀ (conds : List MpCond) (score : Nat) (ranges : List String)
      (values : List (String × String)),
      (values.map Prod.fst).Nodup →
      (((evalConds data unique dflt isOr conds score ranges values).2.2.2).map Prod.fst).Nodup := by
  intro conds
  induction conds with
  | nil => intro score ranges values h; exact h
  | cons cond rest ih =>
    intro score ranges values h
    unfold evalConds
    have hfold : ∀ (c : List (String × String)) (vs : List (String × String)),
        (vs.map Prod.fst).Nodup →
        ((c.foldl (fun acc e => aset e.1 e.2 acc) vs).map Prod.fst).Nodup := by
      intro c
      induction c with
      | nil => intro vs hv; exact hv
      | cons e es ihe =>
        intro vs hv
        rw [List.foldl_cons]
        exact ihe _ (nodupKeys_aset e.1 e.2 vs hv)
    cases hm : (evalCondEntries data unique dflt cond score ranges).1 with
    | false =>
      cases isOr with
      | false => simp [hm, h]
      | true =>
        simp only [hm, Bool.false_eq_true, if_false, if_true]
        exact ih _ _ _ h
    | true =>
      cases isOr with
      | false =>
        simp only [hm, if_true, Bool.false_eq_true, if_false]
        exact ih _ _ _ (hfold cond values h)
      | true => simp [hm, hfold cond values h]

/-- Effect of an accepted part on the `usedKeyValues` record: for a
tracked property the stored value becomes the binding of the part (its
unique entry for that key), everything else is untouched. -/
theorem alookup_usedFold (ranges : List String) (vals : List (String × String)) :
    ∀ (used : List (String × String)) (k : String),
    (vals.map Prod.fst).Nodup →
    alookup k (vals.foldl
        (fun acc e => if ranges.contains e.1 then aset e.1 e.2 acc else acc) used) =
      if ranges.contains k then
        match alookup k vals with
        | some v => some v
        | none => alookup k used
      else alookup k used := by
  induction vals with
  | nil =>
    intro used k _
    by_cases hc : ranges.contains k <;> simp [hc, alookup]
  | cons e es ih =>
    intro used k hnd
    obtain ⟨k1, v1⟩ := e
    simp only [List.map_cons, List.nodup_cons] at hnd
    rw [List.foldl_cons]
    by_cases hk1 : k1 = k
    · subst hk1
      have hnotin : alookup k1 es = none := by
        clear ih
        induction es with
        | nil => rfl
        | cons q qs ihq =>
          obtain ⟨kq, vq⟩ := q
          simp only [List.map_cons, List.mem_cons, List.nodup_cons] at hnd
          have hne : kq ≠ k1 := by
            intro he
            exact hnd.1 (Or.inl he.symm)
          simp only [alookup, if_neg hne]
          exact ihq ⟨fun hm => hnd.1 (Or.inr hm), hnd.2.2⟩
      rw [ih _ k1 hnd.2]
      by_cases hc : ranges.contains k1
      · have hcm : k1 ∈ ranges := by simpa using hc
        simp [hcm, hnotin, alookup, alookup_aset_self]
      · have hcm : k1 ∉ ranges := by simpa using hc
        simp [hcm, alookup]
    · rw [ih _ k hnd.2]
      have hlk : alookup k ((k1, v1) :: es) = alookup k es := by
        simp [alookup, hk1]
      rw [hlk]
      by_cases hc1 : ranges.contains k1
      · simp only [hc1, if_true]
        rw [alookup_aset_ne k k1 v1 used (fun he => hk1 he.symm)]
      · simp only [hc1, if_false, Bool.false_eq_true]

/-- Bridge between the threaded `usedKeyValues` record and the
claim-side view: the acceptance pass keeps exactly the parts that do not
conflict (in the sense of `specConflictB`) with the previously accepted
parts, and emits their apply entries in order. -/
theorem acceptLoop_eq_spec (ranges : List String) :
    ∀ (lst : List ScoredPart) (used : List (String × String)) (acc : List ScoredPart),
    (∀ p ∈ lst, (p.values.map Prod.fst).Nodup) →
    (∀ k, alookup k used = lastRangeBinding ranges acc k) →
    acceptLoop ranges lst used = (specAcceptedAux ranges acc lst).filterMap applyModelOf := by
  intro lst
  induction lst with
  | nil => intro used acc _ _; rfl
  | cons p rest ih =>
    intro used acc hnd hinv
    have hpred : (fun (e : String × String) =>
        match alookup e.1 used with
        | some w => !(w == "") && !(w == e.2)
        | none => false) = (fun (e : String × String) =>
        match lastRangeBinding ranges acc e.1 with
        | some w => !(w == "") && !(w == e.2)
        | none => false) := by
      funext e
      rw [hinv e.1]
    have hconf : (p.values.any (fun e =>
        match alookup e.1 used with
        | some w => !(w == "") && !(w == e.2)
        | none => false)) = specConflictB ranges acc p := by
      unfold specConflictB
      rw [hpred]
    unfold acceptLoop specAcceptedAux
    rw [hconf]
    by_cases hc : specConflictB ranges acc p
    · simp only [hc, if_true]
      exact ih used acc (fun q hq => hnd q (List.mem_cons_of_mem _ hq)) hinv
    · simp only [hc, if_false, Bool.false_eq_true]
      rw [List.filterMap_cons]
      have hrec := ih
        (p.values.foldl (fun acc2 e => if ranges.contains e.1 then aset e.1 e.2 acc2 else acc2) used)
        (acc ++ [p])
        (fun q hq => hnd q (List.mem_cons_of_mem _ hq))
        ?hinv2
      case hinv2 =>
        intro k
        rw [alookup_usedFold ranges p.values used k (hnd p (List.mem_cons_self _ _))]
        unfold lastRangeBinding
        by_cases hck : ranges.contains k
        · simp only [hck, if_true]
          rw [List.reverse_append]
          simp only [List.reverse_cons, List.reverse_nil, List.nil_append,
            List.singleton_append, List.findSome?]
          cases hv : alookup k p.values with
          | some v => simp
          | none =>
            simp only []
            have := hinv k
            unfold lastRangeBinding at this
            rw [if_pos hck] at this
            exact this
        · simp only [hck, if_false, Bool.false_eq_true]
          have := hinv k
          unfold lastRangeBinding at this
          rw [if_neg hck] at this
          exact this
      rw [hrec]
      cases applyModelOf p with
      | some e => simp
      | none => simp

/-- Every scored part carries a `values` record with unique keys. -/
theorem scorePartsAux_values_nodup (data unique dflt : List (String × CtxVal)) :
    ∀ (parts : List MPart) (idx : Nat) (ranges : List String),
    ∀ sp ∈ (scorePartsAux data unique dflt parts idx ranges).1,
      (sp.values.map Prod.fst).Nodup := by
  intro parts
  induction parts with
  | nil => intro idx ranges sp hsp; simp [scorePartsAux] at hsp
  | cons p rest ih =>
    intro idx ranges sp hsp
    unfold scorePartsAux at hsp
    simp only [List.mem_cons] at hsp
    rcases hsp with hsp | hsp
    · rw [hsp]
      unfold scoreOnePart
      cases hw : p.when with
      | none => simp
      | some w =>
        simp only []
        exact evalConds_values_nodup data unique dflt _ _ 0 ranges [] (by simp)
    · exact ih _ _ sp hsp

/-- A part with no `when` clause scores 0, matches, and records no
bindings. -/
theorem scorePartsAux_when_none (data unique dflt : List (String × CtxVal)) :
    ∀ (parts : List MPart) (idx : Nat) (ranges : List String),
    ∀ sp ∈ (scorePartsAux data unique dflt parts idx ranges).1,
      sp.part.when = none → sp.score = 0 ∧ sp.matchB = true ∧ sp.values = [] := by
  intro parts
  induction parts with
  | nil => intro idx ranges sp hsp; simp [scorePartsAux] at hsp
  | cons p rest ih =>
    intro idx ranges sp hsp hwn
    unfold scorePartsAux at hsp
    simp only [List.mem_cons] at hsp
    rcases hsp with hsp | hsp
    · have hpart : (scoreOnePart data unique dflt p idx ranges).1.part = p := by
        unfold scoreOnePart
        cases p.when <;> simp
      rw [hsp] at hwn ⊢
      rw [hpart] at hwn
      unfold scoreOnePart
      rw [hwn]
      simp
    · exact ih _ _ sp hsp hwn

/-- Keys entering `insertRange` stay or the new key appears. -/
theorem mem_insertRange (k x : String) (ranges : List String)
    (h : (insertRange k ranges).contains x = true) :
    x = k ∨ ranges.contains x = true := by
  unfold insertRange at h
  by_cases hc : ranges.contains k
  · rw [if_pos hc] at h
    exact Or.inr h
  · rw [if_neg hc] at h
    simp at h
    rcases h with h | h
    · right; simp [h]
    · left; exact h

/-- `evalCondEntries` adds only properties whose raw context value is a
list. -/
theorem evalCondEntries_ranges_sound (data unique dflt : List (String × CtxVal)) :
    ∀ (entries : List (String × String)) (score : Nat) (ranges : List String),
    (∀ k, ranges.contains k = true → ∃ l, rawOf data unique dflt k = some (CtxVal.rlist l)) →
    ∀ k, ((evalCondEntries data unique dflt entries score ranges).2.2).contains k = true →
      ∃ l, rawOf data unique dflt k = some (CtxVal.rlist l) := by
  intro entries
  induction entries with
  | nil => intro score ranges hr k hk; exact hr k hk
  | cons e rest ih =>
    intro score ranges hr k hk
    obtain ⟨k1, v1⟩ := e
    unfold evalCondEntries at hk
    simp only [] at hk
    have hr2 : ∀ k2, ((match rawOf data unique dflt k1 with
        | some (CtxVal.rlist _) => insertRange k1 ranges
        | _ => ranges).contains k2 = true) →
        ∃ l, rawOf data unique dflt k2 = some (CtxVal.rlist l) := by
      intro k2 hk2
      cases hraw : rawOf data unique dflt k1 with
      | none => rw [hraw] at hk2; exact hr k2 hk2
      | some cv =>
        cases cv with
        | atom s => rw [hraw] at hk2; exact hr k2 hk2
        | rlist l =>
          rw [hraw] at hk2
          rcases mem_insertRange k1 k2 ranges hk2 with he | hm
          · exact ⟨l, he ▸ hraw⟩
          · exact hr k2 hm
    cases hidx : (actualsOf (rawOf data unique dflt k1)).findIdx?
        (fun a => (jsSplit '|' v1).contains (a.getD "none")) with
    | some i =>
      rw [hidx] at hk
      exact ih _ _ hr2 k hk
    | none =>
      rw [hidx] at hk
      exact hr2 k hk

/-- `evalConds` adds only properties whose raw context value is a
list. -/
theorem evalConds_ranges_sound (data unique dflt : List (String × CtxVal)) (isOr : Bool) :
    ∀ (conds : List MpCond) (score : Nat) (ranges : List String)
      (values : List (String × String)),
    (∀ k, ranges.contains k = true → ∃ l, rawOf data unique dflt k = some (CtxVal.rlist l)) →
    ∀ k, ((evalConds data unique dflt isOr conds score ranges values).2.2.1).contains k = true →
      ∃ l, rawOf data unique dflt k = some (CtxVal.rlist l) := by
  intro conds
  induction conds with
  | nil => intro score ranges values hr k hk; exact hr k hk
  | cons cond rest ih =>
    intro score ranges values hr k hk
    unfold evalConds at hk
    simp only [] at hk
    have hr2 := evalCondEntries_ranges_sound data unique dflt cond score ranges hr
    cases hm : (evalCondEntries data unique dflt cond score ranges).1 with
    | false =>
      rw [hm] at hk
      cases isOr with
      | false => simp at hk; exact hr2 k (by simpa using hk)
      | true =>
        simp only [Bool.false_eq_true, if_false, if_true] at hk
        exact ih _ _ _ hr2 k hk
    | true =>
      rw [hm] at hk
      cases isOr with
      | false =>
        simp only [if_true, Bool.false_eq_true, if_false] at hk
        exact ih _ _ _ hr2 k hk
      | true => simp at hk; exact hr2 k (by simpa using hk)

/-- The `ranges` set built by the scoring pass contains only properties
whose raw context value is a list. -/
theorem scorePartsAux_ranges_sound (data unique dflt : List (String × CtxVal)) :
    ∀ (parts : List MPart) (idx : Nat) (ranges : List String),
    (∀ k, ranges.contains k = true → ∃ l, rawOf data unique dflt k = some (CtxVal.rlist l)) →
    ∀ k, ((scorePartsAux data unique dflt parts idx ranges).2).contains k = true →
      ∃ l, rawOf data unique dflt k = some (CtxVal.rlist l) := by
  intro parts
  induction parts with
  | nil => intro idx ranges hr k hk; exact hr k hk
  | cons p rest ih =>
    intro idx ranges hr k hk
    unfold scorePartsAux at hk
    refine ih _ _ ?_ k hk
    unfold scoreOnePart
    cases hw : p.when with
    | none => exact hr
    | some w =>
      simp only []
      exact evalConds_ranges_sound data unique dflt _ _ 0 ranges [] hr

/-- A part that records no bindings (in particular a `when`-less part)
is accepted by the claim-side greedy pass no matter what was accepted
before it. -/
theorem specAccepted_of_no_values (ranges : List String) :
    ∀ (lst : List ScoredPart) (acc : List ScoredPart) (p : ScoredPart),
    p ∈ lst → p.values = [] → p ∈ specAcceptedAux ranges acc lst := by
  intro lst
  induction lst with
  | nil => intro acc p hp _; simp at hp
  | cons q rest ih =>
    intro acc p hp hv
    rcases List.mem_cons.mp hp with he | hm
    · subst he
      have hnc : specConflictB ranges acc p = false := by
        unfold specConflictB
        rw [hv]
        rfl
      unfold specAcceptedAux
      rw [hnc]
      simp
    · unfold specAcceptedAux
      by_cases hc : specConflictB ranges acc q
      · simp only [hc, if_true]
        exact ih acc p hm hv
      · simp only [hc, if_false, Bool.false_eq_true]
        exact List.mem_cons_of_mem _ (ih (acc ++ [q]) p hm hv)

/-- C3 (amended): in multipart resolution
(i) a part with no `when` clause always matches with score 0 and records
no bindings;
(ii) matching parts are processed in an order that is sorted by
(score descending, declaration index ascending) and is a permutation of
the matched parts;
(iii) the `ranges` set — the properties whose bindings are tracked —
contains only properties whose raw context value is a list;
(iv) the output equals the claim-side greedy pass: a part is rejected
exactly when it binds some property, tracked in `ranges`, whose most
recently accepted binding is a **non-empty** value different from the
one the part binds (an accepted empty-string binding never blocks later
parts); accepted parts contribute their apply entries in order;
(v) consequently a `when`-less part whose apply carries a model always
has that entry in the output. -/
theorem c3_multipart_greedy (data unique dflt : List (String × CtxVal)) (parts : List MPart) :
    (∀ sp ∈ (scoreParts data unique dflt parts).1, sp.part.when = none →
      sp.score = 0 ∧ sp.matchB = true ∧ sp.values = []) ∧
    List.Sorted partGE (List.insertionSort partGE
      ((scoreParts data unique dflt parts).1.filter (fun p => p.matchB))) ∧
    (List.insertionSort partGE
      ((scoreParts data unique dflt parts).1.filter (fun p => p.matchB))).Perm
      ((scoreParts data unique dflt parts).1.filter (fun p => p.matchB)) ∧
    (∀ k, ((scoreParts data unique dflt parts).2).contains k = true →
      ∃ l, rawOf data unique dflt k = some (CtxVal.rlist l)) ∧
    selectMultipart data unique dflt parts =
      (specAcceptedAux (scoreParts data unique dflt parts).2 []
        (List.insertionSort partGE
          ((scoreParts data unique dflt parts).1.filter (fun p => p.matchB)))).filterMap
        applyModelOf ∧
    (∀ sp ∈ (scoreParts data unique dflt parts).1, sp.part.when = none →
      ∀ e, applyModelOf sp = some e → e ∈ selectMultipart data unique dflt parts) := by
  have hwn := scorePartsAux_when_none data unique dflt parts 0 []
  have hnd : ∀ sp ∈ (scoreParts data unique dflt parts).1, (sp.values.map Prod.fst).Nodup :=
    scorePartsAux_values_nodup data unique dflt parts 0 []
  have hrs : ∀ k, ((scoreParts data unique dflt parts).2).contains k = true →
      ∃ l, rawOf data unique dflt k = some (CtxVal.rlist l) :=
    scorePartsAux_ranges_sound data unique dflt parts 0 [] (by intro k hk; simp at hk)
  have hbridge : selectMultipart data unique dflt parts =
      (specAcceptedAux (scoreParts data unique dflt parts).2 []
        (List.insertionSort partGE
          ((scoreParts data unique dflt parts).1.filter (fun p => p.matchB)))).filterMap
        applyModelOf := by
    unfold selectMultipart
    apply acceptLoop_eq_spec
    · intro p hp
      have hp2 : p ∈ (scoreParts data unique dflt parts).1.filter (fun p => p.matchB) :=
        (List.mem_insertionSort partGE).mp hp
      exact hnd p (List.mem_of_mem_filter hp2)
    · intro k
      unfold lastRangeBinding
      by_cases hc : ((scoreParts data unique dflt parts).2).contains k
      · simp [hc, alookup]
      · simp [hc, alookup]
  refine ⟨hwn, List.sorted_insertionSort partGE _, List.perm_insertionSort partGE _, hrs,
    hbridge, ?_⟩
  intro sp hsp hwnone e happ
  obtain ⟨h0, hm, hv⟩ := hwn sp hsp hwnone
  have hfil : sp ∈ (scoreParts data unique dflt parts).1.filter (fun p => p.matchB) :=
    List.mem_filter.mpr ⟨hsp, by rw [hm]⟩
  have hsort : sp ∈ List.insertionSort partGE
      ((scoreParts data unique dflt parts).1.filter (fun p => p.matchB)) :=
    (List.mem_insertionSort partGE).mpr hfil
  have hacc := specAccepted_of_no_values (scoreParts data unique dflt parts).2 _ [] sp hsort hv
  rw [hbridge]
  exact List.mem_filterMap.mpr ⟨sp, hacc, happ⟩

/-- Witness for `c3_multipart_greedy`: a `when`-less part (apply `mA`)
and a matching conditioned part (apply `mB`); both land in the output,
the `when`-less one via conjunct (v). -/
theorem c3_multipart_greedy_witness :
    (∃ sp ∈ (scoreParts [("p", CtxVal.atom "1")] [] []
        [⟨none, some (VariantVal.one ⟨some "mA", none, none, none, false, none⟩)⟩,
         ⟨some (MpWhen.bare [("p", "1")]),
          some (VariantVal.one ⟨some "mB", none, none, none, false, none⟩)⟩]).1,
      sp.part.when = none ∧
      applyModelOf sp = some ⟨some "mA", none, none, none, false, none⟩) ∧
    (⟨some "mA", none, none, none, false, none⟩ : BsEntry) ∈
      selectMultipart [("p", CtxVal.atom "1")] [] []
        [⟨none, some (VariantVal.one ⟨some "mA", none, none, none, false, none⟩)⟩,
         ⟨some (MpWhen.bare [("p", "1")]),
          some (VariantVal.one ⟨some "mB", none, none, none, false, none⟩)⟩] := by
  constructor
  · refine ⟨⟨0, [], ⟨none, some (VariantVal.one ⟨some "mA", none, none, none, false, none⟩)⟩,
      0, true⟩, ?_, ?_, ?_⟩ <;> decide
  · exact (c3_multipart_greedy [("p", CtxVal.atom "1")] [] []
      [⟨none, some (VariantVal.one ⟨some "mA", none, none, none, false, none⟩)⟩,
       ⟨some (MpWhen.bare [("p", "1")]),
        some (VariantVal.one ⟨some "mB", none, none, none, false, none⟩)⟩]).2.2.2.2.2
      ⟨0, [], ⟨none, some (VariantVal.one ⟨some "mA", none, none, none, false, none⟩)⟩, 0, true⟩
      (by decide) (by decide) ⟨some "mA", none, none, none, false, none⟩ (by decide)

/-- C3 counterexample to the claim as stated: with context
`foo = ["", "x"]` (a list-valued property), part 0 binds `foo` to the
empty string and part 1 binds `foo` to `"x"`.  The two parts bind the
same list-valued property to conflicting values, so the claim makes them
mutually exclusive with only part 0 surviving — but the conflict check
`usedKeyValues[k] && usedKeyValues[k] !== v` is skipped for the falsy
stored empty string, and **both** models are emitted. -/
theorem c3_counterexample :
    selectMultipart [("foo", CtxVal.rlist ["", "x"])] [] []
        [⟨some (MpWhen.bare [("foo", "")]),
          some (VariantVal.one ⟨some "m0", none, none, none, false, none⟩)⟩,
         ⟨some (MpWhen.bare [("foo", "x")]),
          some (VariantVal.one ⟨some "m1", none, none, none, false, none⟩)⟩] =
      [⟨some "m0", none, none, none, false, none⟩,
       ⟨some "m1", none, none, none, false, none⟩] ∧
    ("" : String) ≠ "x" := by
  exact ⟨by decide, by decide⟩

/-! ## `resolveModelData`: sprite-to-voxel expansion (C5)

The decoded image of a texture slot is modelled as a width, a height and
an alpha channel; the environment `imgOf` stands for the PNG decode of
the resolved texture path (namespace resolution, `.mcmeta` first-frame
cropping and the canvas read happen in IO and are outside the claim). -/

/-- A decoded sprite image: dimensions plus the alpha channel read
`imageData[(y * width + x) * 4 + 3]`. -/
structure SpriteImg where
  w : Nat
  h : Nat
  alpha : Nat → Nat → Nat

/-- Translation of the local `isOpaque(x, y)`
(blockmodel-utils.js:673-677): out-of-bounds reads are transparent,
in-bounds pixels are opaque when their alpha is at least 1. -/
def isOpaquePx (img : SpriteImg) (x y : Int) : Bool :=
  decide (0 ≤ x) && decide (x < (img.w : Int)) && decide (0 ≤ y) && decide (y < (img.h : Int)) &&
  decide (1 ≤ img.alpha x.toNat y.toNat)

/-- JS `String(val).replace(/^minecraft:/, "")` (the `normalize` helper,
blockmodel-utils.js:371-373) on a string. -/
def stripMinecraft (s : String) : String :=
  if jsStartsWith s "minecraft:" then jsDrop s 10 else s

/-- `normalize` applied to a possibly absent field: JS stringifies
`undefined` to `"undefined"`. -/
def normalizeParent (p : Option String) : String :=
  match p with
  | some s => stripMinecraft s
  | none => "undefined"

/-- The box element emitted for the opaque pixel `(x, y)`
(blockmodel-utils.js:679-710): depth `16/max(w,h)`, texel UV rectangle
in 0..16 space, side faces only against transparent or out-of-bounds
neighbours, north/south always. -/
def pixelElement (img : SpriteImg) (tintIdx : Nat) (texId : String) (x y : Nat) : Element :=
  let depth : ℚ := 16 / (max img.w img.h : ℚ)
  let x1 : ℚ := x * depth
  let y1 : ℚ := 16 - (y + 1) * depth
  let x2 : ℚ := x1 + depth
  let y2 : ℚ := y1 + depth
  let u1 : ℚ := x / (img.w : ℚ) * 16
  let v1 : ℚ := y / (img.h : ℚ) * 16
  let u2 : ℚ := (x + 1) / (img.w : ℚ) * 16
  let v2 : ℚ := (y + 1) / (img.h : ℚ) * 16
  let face : ElemFace := ⟨some texId, some [u1, v1, u2, v2], none, some tintIdx⟩
  let faces :=
    (if isOpaquePx img x ((y : Int) - 1) then [] else [("up", face)]) ++
    (if isOpaquePx img x ((y : Int) + 1) then [] else [("down", face)]) ++
    (if isOpaquePx img ((x : Int) - 1) y then [] else [("west", face)]) ++
    (if isOpaquePx img ((x : Int) + 1) y then [] else [("east", face)]) ++
    [("north", face), ("south", face)]
  ⟨[x1, y1, 8 - depth / 2], [x2, y2, 8 + depth / 2], faces, none, none⟩

/-- Translation of the pixel double loop (blockmodel-utils.js:679-711):
row major, skipping pixels with `alpha === 0`. -/
def spriteElems (img : SpriteImg) (tintIdx : Nat) (texId : String) : List Element :=
  ((List.range img.h).map (fun y =>
    (List.range img.w).filterMap (fun x =>
      if img.alpha x y = 0 then none else some (pixelElement img tintIdx texId x y)))).flatten

/-- Decimal digit test for the `layerN` pattern. -/
def jsIsDigit (c : Char) : Bool := 48 ≤ c.toNat && c.toNat ≤ 57

/-- Decimal value of a digit string (`Number(match[1])`). -/
def digitsToNat (l : List Char) : Nat := l.foldl (fun acc c => 10 * acc + (c.toNat - 48)) 0

/-- The `key.match(/^layer(\d+)$/)` test (blockmodel-utils.js:657-659):
the tint index carried by a matching slot name. -/
def layerIndexOf (key : String) : Option Nat :=
  if jsStartsWith key "layer" then
    let digits := (jsDrop key 5).data
    if digits.isEmpty then none
    else if digits.all jsIsDigit then some (digitsToNat digits) else none
  else none

/-- Translation of the `for (const [key, texRef] of
Object.entries(merged.textures))` loop (blockmodel-utils.js:656-713):
every `layerN` slot contributes one sprite expansion of its decoded
image with tint index N and texture reference `"#" ++ key`. -/
def generatedElements (texs : List (String × String)) (imgOf : String → SpriteImg) :
    List Element :=
  (texs.map (fun kv =>
    match layerIndexOf kv.1 with
    | some n => spriteElems (imgOf kv.2) n ("#" ++ kv.1)
    | none => [])).flatten

/-- The expansion gate (blockmodel-utils.js:654): run sprite expansion
exactly when the terminal document names the `builtin/generated` parent
and `merged.elements` is falsy (absent; an explicit empty array is a
truthy JS value and blocks the expansion). -/
def spriteExpand (lastParent : Option String) (elements : Option (List Element))
    (texs : List (String × String)) (imgOf : String → SpriteImg) : Option (List Element) :=
  if normalizeParent lastParent = "builtin/generated" ∧ elements.isNone then
    some (generatedElements texs imgOf)
  else elements

/-- The opaque-pixel positions of an image, row major (claim-side). -/
def spritePixels (img : SpriteImg) : List (Nat × Nat) :=
  ((List.range img.h).map (fun y =>
    (List.range img.w).filterMap (fun x =>
      if img.alpha x y = 0 then none else some (x, y)))).flatten

/-- Number of pixels with non-zero alpha (claim-side). -/
def numOpaque (img : SpriteImg) : Nat :=
  ((List.range img.h).map (fun y =>
    ((List.range img.w).filter (fun x => !(img.alpha x y == 0))).length)).sum

/-- The emitted element list is the per-opaque-pixel element map over
the opaque pixels in row-major order: exactly one box element per pixel
with non-zero alpha. -/
theorem spriteElems_eq_map (img : SpriteImg) (tintIdx : Nat) (texId : String) :
    spriteElems img tintIdx texId =
      (spritePixels img).map (fun p => pixelElement img tintIdx texId p.1 p.2) := by
  unfold spriteElems spritePixels
  rw [List.map_flatten]
  congr 1
  rw [List.map_map]
  apply List.map_congr_left
  intro y _
  simp only [Function.comp]
  rw [List.map_filterMap]
  apply List.filterMap_congr
  intro x _
  by_cases ha : img.alpha x y = 0
  · simp [ha]
  · simp [ha]

/-- Count: the expansion emits as many elements as there are non-zero
alpha pixels. -/
theorem spriteElems_length (img : SpriteImg) (tintIdx : Nat) (texId : String) :
    (spriteElems img tintIdx texId).length = numOpaque img := by
  unfold spriteElems numOpaque
  rw [List.length_flatten, List.map_map]
  congr 1
  apply List.map_congr_left
  intro y _
  simp only [Function.comp]
  induction List.range img.w with
  | nil => rfl
  | cons x xs ih =>
    rw [List.filterMap_cons, List.filter_cons]
    by_cases ha : img.alpha x y = 0
    · simp only [ha, if_pos rfl]
      have : (img.alpha x y == 0) = true := by simp [ha]
      simp [this, ih]
    · simp only [ha, if_neg ha]
      have : (img.alpha x y == 0) = false := by simp [ha]
      simp [this, ih]

/-- Membership: the emitted elements are exactly the per-pixel elements
of the in-bounds pixels with non-zero alpha. -/
theorem spriteElems_mem (img : SpriteImg) (tintIdx : Nat) (texId : String) (e : Element) :
    e ∈ spriteElems img tintIdx texId ↔
      ∃ x y, x < img.w ∧ y < img.h ∧ img.alpha x y ≠ 0 ∧
        e = pixelElement img tintIdx texId x y := by
  unfold spriteElems
  rw [List.mem_flatten]
  constructor
  · rintro ⟨row, hrow, he⟩
    obtain ⟨y, hy, hrow2⟩ := List.mem_map.mp hrow
    rw [← hrow2] at he
    obtain ⟨x, hx, hfx⟩ := List.mem_filterMap.mp he
    by_cases ha : img.alpha x y = 0
    · rw [if_pos ha] at hfx
      exact absurd hfx (by simp)
    · rw [if_neg ha] at hfx
      simp at hfx
      exact ⟨x, y, List.mem_range.mp hx, List.mem_range.mp hy, ha, hfx.symm⟩
  · rintro ⟨x, y, hx, hy, ha, he⟩
    refine ⟨(List.range img.w).filterMap (fun x =>
      if img.alpha x y = 0 then none else some (pixelElement img tintIdx texId x y)), ?_, ?_⟩
    · exact List.mem_map.mpr ⟨y, List.mem_range.mpr hy, rfl⟩
    · refine List.mem_filterMap.mpr ⟨x, List.mem_range.mpr hx, ?_⟩
      rw [if_neg ha, he]

/-- Lookup distributes over append. -/
theorem alookup_append {α : Type} (k : String) (l1 l2 : List (String × α)) :
    alookup k (l1 ++ l2) =
      match alookup k l1 with
      | some v => some v
      | none => alookup k l2 := by
  induction l1 with
  | nil => simp [alookup]
  | cons p rest ih =>
    obtain ⟨k2, v⟩ := p
    by_cases h2 : k2 = k
    · simp [alookup, h2]
    · simp [alookup, h2, ih]

/-- Shape of the element emitted for pixel `(x, y)`: box of depth
`16/max(w,h)` at the pixel position, texel-rectangle UVs in 0..16 space,
tint index N on every face, north/south always present, the four side
faces present exactly against a transparent or out-of-bounds
neighbour. -/
theorem pixelElement_content (img : SpriteImg) (tintIdx : Nat) (texId : String) (x y : Nat) :
    (pixelElement img tintIdx texId x y).efrom =
      [x * (16 / (max img.w img.h : ℚ)), 16 - (y + 1) * (16 / (max img.w img.h : ℚ)),
       8 - 16 / (max img.w img.h : ℚ) / 2] ∧
    (pixelElement img tintIdx texId x y).eto =
      [x * (16 / (max img.w img.h : ℚ)) + 16 / (max img.w img.h : ℚ),
       16 - (y + 1) * (16 / (max img.w img.h : ℚ)) + 16 / (max img.w img.h : ℚ),
       8 + 16 / (max img.w img.h : ℚ) / 2] ∧
    (pixelElement img tintIdx texId x y).rotationE = none ∧
    (pixelElement img tintIdx texId x y).shade = none ∧
    (∀ fname face2, (fname, face2) ∈ (pixelElement img tintIdx texId x y).faces →
      face2 = ⟨some texId,
        some [x / (img.w : ℚ) * 16, y / (img.h : ℚ) * 16,
              (x + 1) / (img.w : ℚ) * 16, (y + 1) / (img.h : ℚ) * 16], none, some tintIdx⟩) ∧
    alookup "north" (pixelElement img tintIdx texId x y).faces ≠ none ∧
    alookup "south" (pixelElement img tintIdx texId x y).faces ≠ none ∧
    (alookup "up" (pixelElement img tintIdx texId x y).faces ≠ none ↔
      isOpaquePx img x ((y : Int) - 1) = false) ∧
    (alookup "down" (pixelElement img tintIdx texId x y).faces ≠ none ↔
      isOpaquePx img x ((y : Int) + 1) = false) ∧
    (alookup "west" (pixelElement img tintIdx texId x y).faces ≠ none ↔
      isOpaquePx img ((x : Int) - 1) y = false) ∧
    (alookup "east" (pixelElement img tintIdx texId x y).faces ≠ none ↔
      isOpaquePx img ((x : Int) + 1) y = false) := by
  unfold pixelElement
  refine ⟨rfl, rfl, rfl, rfl, ?_, ?_⟩
  · intro fname face2 hmem
    simp only [] at hmem
    rcases List.mem_append.mp hmem with hm | hm
    rotate_left
    · rcases List.mem_cons.mp hm with hm2 | hm2
      · exact congrArg Prod.snd hm2
      · simp at hm2
        exact hm2.2
    rcases List.mem_append.mp hm with hm | hm
    rotate_left
    · by_cases hc : isOpaquePx img ((x : Int) + 1) y
      · rw [if_pos hc] at hm; simp at hm
      · rw [if_neg hc] at hm; simp at hm; exact hm.2
    rcases List.mem_append.mp hm with hm | hm
    rotate_left
    · by_cases hc : isOpaquePx img ((x : Int) - 1) y
      · rw [if_pos hc] at hm; simp at hm
      · rw [if_neg hc] at hm; simp at hm; exact hm.2
    rcases List.mem_append.mp hm with hm | hm
    · by_cases hc : isOpaquePx img x ((y : Int) - 1)
      · rw [if_pos hc] at hm; simp at hm
      · rw [if_neg hc] at hm; simp at hm; exact hm.2
    · by_cases hc : isOpaquePx img x ((y : Int) + 1)
      · rw [if_pos hc] at hm; simp at hm
      · rw [if_neg hc] at hm; simp at hm; exact hm.2
  · by_cases h1 : isOpaquePx img x ((y : Int) - 1) <;>
    by_cases h2 : isOpaquePx img x ((y : Int) + 1) <;>
    by_cases h3 : isOpaquePx img ((x : Int) - 1) y <;>
    by_cases h4 : isOpaquePx img ((x : Int) + 1) y <;>
    simp [h1, h2, h3, h4, alookup, alookup_append]

/-- A `filterMap` that hits exactly one element of a duplicate-free list
yields that single image. -/
theorem filterMap_singleton_of_unique {α β : Type} (f : α → Option β) (l : List α)
    (a0 : α) (v : β) (hnd : l.Nodup) (hmem : a0 ∈ l) (hf : f a0 = some v)
    (hother : ∀ a ∈ l, a ≠ a0 → f a = none) : l.filterMap f = [v] := by
  induction l with
  | nil => simp at hmem
  | cons a rest ih =>
    have hnd2 := List.nodup_cons.mp hnd
    rcases List.mem_cons.mp hmem with he | hm
    · subst he
      rw [List.filterMap_cons, hf]
      have hnil : rest.filterMap f = [] := by
        rw [List.filterMap_eq_nil]
        intro b hb
        exact hother b (List.mem_cons_of_mem _ hb) (fun he2 => hnd2.1 (he2 ▸ hb))
      rw [hnil]
    · have hne : a ≠ a0 := fun he => hnd2.1 (he ▸ hm)
      rw [List.filterMap_cons, hother a (List.mem_cons_self _ _) hne]
      exact ih hnd2.2 hm (fun b hb hbne => hother b (List.mem_cons_of_mem _ hb) hbne)

/-- A map producing only empty lists flattens to the empty list. -/
theorem flatten_map_nil {α β : Type} (g : α → List β) (l : List α)
    (h : ∀ b ∈ l, g b = []) : (l.map g).flatten = [] := by
  induction l with
  | nil => rfl
  | cons b bs ih =>
    simp only [List.map_cons, List.flatten_cons, h b (List.mem_cons_self _ _), List.nil_append]
    exact ih (fun c hc => h c (List.mem_cons_of_mem _ hc))

/-- A flattened map in which exactly one element of a duplicate-free
list produces a (singleton) non-empty list yields that singleton. -/
theorem flatten_map_singleton_of_unique {α β : Type} (g : α → List β) (l : List α)
    (a0 : α) (v : β) (hnd : l.Nodup) (hmem : a0 ∈ l) (hg : g a0 = [v])
    (hother : ∀ a ∈ l, a ≠ a0 → g a = []) : (l.map g).flatten = [v] := by
  induction l with
  | nil => simp at hmem
  | cons a rest ih =>
    have hnd2 := List.nodup_cons.mp hnd
    rcases List.mem_cons.mp hmem with he | hm
    · subst he
      have hnil : ∀ b ∈ rest, g b = [] :=
        fun b hb => hother b (List.mem_cons_of_mem _ hb) (fun he2 => hnd2.1 (he2 ▸ hb))
      simp only [List.map_cons, List.flatten_cons, hg]
      rw [flatten_map_nil g rest hnil]
      simp
    · have hne : a ≠ a0 := fun he => hnd2.1 (he ▸ hm)
      simp only [List.map_cons, List.flatten_cons, hother a (List.mem_cons_self _ _) hne,
        List.nil_append]
      exact ih hnd2.2 hm (fun b hb hbne => hother b (List.mem_cons_of_mem _ hb) hbne)

/-- A single-opaque-pixel image expands to exactly one element. -/
theorem spriteElems_single_pixel (img : SpriteImg) (tintIdx : Nat) (texId : String)
    (x0 y0 : Nat) (hx0 : x0 < img.w) (hy0 : y0 < img.h) (ha : img.alpha x0 y0 ≠ 0)
    (huniq : ∀ x < img.w, ∀ y < img.h, img.alpha x y ≠ 0 → (x, y) = (x0, y0)) :
    spriteElems img tintIdx texId = [pixelElement img tintIdx texId x0 y0] := by
  unfold spriteElems
  apply flatten_map_singleton_of_unique _ _ y0 _ (List.nodup_range _)
    (List.mem_range.mpr hy0)
  · apply filterMap_singleton_of_unique _ _ x0 _ (List.nodup_range _)
      (List.mem_range.mpr hx0)
    · rw [if_neg ha]
    · intro x hx hne
      by_cases hax : img.alpha x y0 = 0
      · rw [if_pos hax]
      · exact absurd (congrArg Prod.fst (huniq x (List.mem_range.mp hx) y0 hy0 hax)) hne
  · intro y hy hne
    rw [List.filterMap_eq_nil]
    intro x hx
    by_cases hax : img.alpha x y = 0
    · rw [if_pos hax]
    · exact absurd (congrArg Prod.snd (huniq x (List.mem_range.mp hx) y (List.mem_range.mp hy) hax))
        hne

/-- The four neighbours of the unique opaque pixel are transparent or
out of bounds, so its element carries all six faces. -/
theorem spriteElems_single_pixel_six_faces (img : SpriteImg) (x0 y0 : Nat)
    (hx0 : x0 < img.w) (hy0 : y0 < img.h)
    (huniq : ∀ x < img.w, ∀ y < img.h, img.alpha x y ≠ 0 → (x, y) = (x0, y0)) :
    isOpaquePx img x0 ((y0 : Int) - 1) = false ∧
    isOpaquePx img x0 ((y0 : Int) + 1) = false ∧
    isOpaquePx img ((x0 : Int) - 1) y0 = false ∧
    isOpaquePx img ((x0 : Int) + 1) y0 = false := by
  have hgen : ∀ (a b : Int), (a, b) ≠ ((x0 : Int), (y0 : Int)) → isOpaquePx img a b = false := by
    intro a b hne
    unfold isOpaquePx
    by_cases h1 : 0 ≤ a
    rotate_left
    · simp [h1]
    by_cases h2 : a < (img.w : Int)
    rotate_left
    · simp [h2]
    by_cases h3 : 0 ≤ b
    rotate_left
    · simp [h3]
    by_cases h4 : b < (img.h : Int)
    rotate_left
    · simp [h4]
    have h5 : img.alpha a.toNat b.toNat = 0 := by
      by_contra hnz
      have hxw : a.toNat < img.w := by omega
      have hyh : b.toNat < img.h := by omega
      have heq := huniq a.toNat hxw b.toNat hyh hnz
      apply hne
      have hx2 : a.toNat = x0 := congrArg Prod.fst heq
      have hy2 : b.toNat = y0 := congrArg Prod.snd heq
      have ha2 : a = (x0 : Int) := by omega
      have hb2 : b = (y0 : Int) := by omega
      rw [ha2, hb2]
    simp [h5]
  refine ⟨hgen _ _ ?_, hgen _ _ ?_, hgen _ _ ?_, hgen _ _ ?_⟩
  all_goals
    intro he
    rw [Prod.mk.injEq] at he
    omega

/-- A fully transparent image expands to no elements. -/
theorem spriteElems_transparent (img : SpriteImg) (tintIdx : Nat) (texId : String)
    (hz : ∀ x < img.w, ∀ y < img.h, img.alpha x y = 0) :
    spriteElems img tintIdx texId = [] := by
  unfold spriteElems
  have hrows : ∀ y ∈ List.range img.h,
      (List.range img.w).filterMap (fun x =>
        if img.alpha x y = 0 then none else some (pixelElement img tintIdx texId x y)) = [] := by
    intro y hy
    rw [List.filterMap_eq_nil]
    intro x hx
    rw [if_pos (hz x (List.mem_range.mp hx) y (List.mem_range.mp hy))]
  exact flatten_map_nil _ _ hrows

/-- C5: when the terminal ancestor of the parent chain names the builtin
`"generated"` template and the merged model has no `elements` field, the
expansion emits, for each `layerN` texture slot, exactly one box element
per pixel with non-zero alpha (row major), of depth `16/max(w,h)`, with
north/south faces always present, west/east/up/down faces present
exactly where the neighbouring pixel is transparent or out of bounds,
texel-rectangle UVs in 0..16 space and tint index N; a single opaque
pixel yields exactly one element carrying all six faces, and a fully
transparent image yields zero elements.  When `elements` is present the
model is left untouched. -/
theorem c5_sprite_expansion :
    (∀ (p : Option String) (texs : List (String × String)) (imgOf : String → SpriteImg),
      normalizeParent p = "builtin/generated" →
      spriteExpand p none texs imgOf = some (generatedElements texs imgOf)) ∧
    (∀ (p : Option String) (es : List Element) (texs : List (String × String))
        (imgOf : String → SpriteImg),
      spriteExpand p (some es) texs imgOf = some es) ∧
    (∀ (img : SpriteImg) (tintIdx : Nat) (texId : String),
      spriteElems img tintIdx texId =
        (spritePixels img).map (fun px => pixelElement img tintIdx texId px.1 px.2) ∧
      (spriteElems img tintIdx texId).length = numOpaque img) ∧
    (∀ (img : SpriteImg) (tintIdx : Nat) (texId : String) (x y : Nat),
      alookup "north" (pixelElement img tintIdx texId x y).faces ≠ none ∧
      alookup "south" (pixelElement img tintIdx texId x y).faces ≠ none ∧
      (alookup "up" (pixelElement img tintIdx texId x y).faces ≠ none ↔
        isOpaquePx img x ((y : Int) - 1) = false) ∧
      (alookup "down" (pixelElement img tintIdx texId x y).faces ≠ none ↔
        isOpaquePx img x ((y : Int) + 1) = false) ∧
      (alookup "west" (pixelElement img tintIdx texId x y).faces ≠ none ↔
        isOpaquePx img ((x : Int) - 1) y = false) ∧
      (alookup "east" (pixelElement img tintIdx texId x y).faces ≠ none ↔
        isOpaquePx img ((x : Int) + 1) y = false) ∧
      (∀ fname face2, (fname, face2) ∈ (pixelElement img tintIdx texId x y).faces →
        face2 = ⟨some texId,
          some [x / (img.w : ℚ) * 16, y / (img.h : ℚ) * 16,
                (x + 1) / (img.w : ℚ) * 16, (y + 1) / (img.h : ℚ) * 16], none, some tintIdx⟩)) ∧
    (∀ (img : SpriteImg) (tintIdx : Nat) (texId : String) (x0 y0 : Nat),
      x0 < img.w → y0 < img.h → img.alpha x0 y0 ≠ 0 →
      (∀ x < img.w, ∀ y < img.h, img.alpha x y ≠ 0 → (x, y) = (x0, y0)) →
      spriteElems img tintIdx texId = [pixelElement img tintIdx texId x0 y0] ∧
      ∀ fname, fname ∈ ["north", "south", "up", "down", "west", "east"] →
        alookup fname (pixelElement img tintIdx texId x0 y0).faces ≠ none) ∧
    (∀ (img : SpriteImg) (tintIdx : Nat) (texId : String),
      (∀ x < img.w, ∀ y < img.h, img.alpha x y = 0) →
      spriteElems img tintIdx texId = []) := by
  refine ⟨?_, ?_, ?_, ?_, ?_, spriteElems_transparent⟩
  · intro p texs imgOf hp
    unfold spriteExpand
    rw [if_pos ⟨hp, rfl⟩]
  · intro p es texs imgOf
    unfold spriteExpand
    rw [if_neg]
    intro hcontra
    exact absurd hcontra.2 (by simp)
  · intro img tintIdx texId
    exact ⟨spriteElems_eq_map img tintIdx texId, spriteElems_length img tintIdx texId⟩
  · intro img tintIdx texId x y
    obtain ⟨_, _, _, _, hall, hn, hs, hu, hd, hw, he⟩ := pixelElement_content img tintIdx texId x y
    exact ⟨hn, hs, hu, hd, hw, he, hall⟩
  · intro img tintIdx texId x0 y0 hx0 hy0 ha huniq
    obtain ⟨hup, hdn, hwe, hea⟩ := spriteElems_single_pixel_six_faces img x0 y0 hx0 hy0 huniq
    obtain ⟨_, _, _, _, _, hn, hs, hu, hd, hw, he⟩ := pixelElement_content img tintIdx texId x0 y0
    refine ⟨spriteElems_single_pixel img tintIdx texId x0 y0 hx0 hy0 ha huniq, ?_⟩
    intro fname hf
    simp only [List.mem_cons, List.mem_singleton] at hf
    rcases hf with rfl | rfl | rfl | rfl | rfl | rfl | hf
    · exact hn
    · exact hs
    · exact hu.mpr hup
    · exact hd.mpr hdn
    · exact hw.mpr hwe
    · exact he.mpr hea
    · simp at hf

/-- Witness for `c5_sprite_expansion`: a 1×1 fully opaque image expands
to a single all-six-faces element under a `builtin/generated` terminal
parent, and a 1×1 fully transparent image expands to nothing. -/
theorem c5_sprite_expansion_witness :
    spriteElems ⟨1, 1, fun _ _ => 255⟩ 0 "#layer0" =
      [pixelElement ⟨1, 1, fun _ _ => 255⟩ 0 "#layer0" 0 0] ∧
    (∀ fname, fname ∈ ["north", "south", "up", "down", "west", "east"] →
      alookup fname (pixelElement ⟨1, 1, fun _ _ => 255⟩ 0 "#layer0" 0 0).faces ≠ none) ∧
    spriteElems ⟨1, 1, fun _ _ => 0⟩ 0 "#layer0" = [] ∧
    normalizeParent (some "minecraft:builtin/generated") = "builtin/generated" := by
  have h5 := c5_sprite_expansion
  obtain ⟨hsingle, hall⟩ := h5.2.2.2.2.1 ⟨1, 1, fun _ _ => 255⟩ 0 "#layer0" 0 0
    (by decide) (by decide) (by decide) (by decide)
  refine ⟨hsingle, hall, ?_, by decide⟩
  exact h5.2.2.2.2.2 ⟨1, 1, fun _ _ => 0⟩ 0 "#layer0" (by decide)

/-! ## Error handling: fatal blockstate load vs recovered chain walk (C6) -/

/-- State of a file on disk: absent, unparsable, or holding a parsed
document. -/
inductive FileResult (α : Type) where
  | missing
  | invalid
  | found (doc : α)
deriving DecidableEq

/-- `JSON.parse(await fs.promises.readFile(path))`: throws when the file
is absent (readFile) or unparsable (JSON.parse). -/
def readJson {α : Type} : FileResult α → Except Unit α
  | FileResult.found d => Except.ok d
  | _ => Except.error ()

/-- The `fileExists` probe (blockmodel-utils.js:493-500): an unparsable
file still exists. -/
def jsFileExists {α : Type} : FileResult α → Bool
  | FileResult.missing => false
  | _ => true

/-- A blockstate document: `variants`, `multipart`,
`allow_invalid_rotations`. -/
structure BsDoc where
  variants : Option (List (String × VariantVal))
  multipart : Option (List MPart)
  allow_invalid_rotations : Bool
deriving DecidableEq

/-- Path selection of `parseBlockstate` (blockmodel-utils.js:191-193):
the override store (keyed by item name) takes precedence when its file
exists. -/
def chosenBlockstateFile (ov : String → FileResult BsDoc)
    (asset : String → String → FileResult BsDoc) (ns item : String) : FileResult BsDoc :=
  if jsFileExists (ov item) then ov item else asset ns item

/-- Result of `parseBlockstate`: a model list, or the literal
`["~missing.json"]` marker returned on a rotation-policy violation. -/
inductive BsOut where
  | modelsOut (ms : List BsEntry)
  | missingMarker
deriving DecidableEq

/-- `model.x && model.x % 90 !== 0` for one axis: a truthy (non-zero)
rotation that is not a multiple of 90. -/
def badAxis (v : Option Int) : Bool :=
  match v with
  | some n => !(n == 0) && !(n % 90 == 0)
  | none => false

/-- Rotation validity of a selected entry (blockmodel-utils.js:294). -/
def entryRotInvalid (e : BsEntry) : Bool := badAxis e.x || badAxis e.y || badAxis e.z

/-- Translation of `parseBlockstate` (blockmodel-utils.js:189-298,368):
read the chosen file (raising on a missing or unparsable descriptor),
select via the variant or multipart pass, then either tolerate invalid
rotations (document flag) or substitute the `["~missing.json"]` marker.
The tint decoration of the selected models (blockmodel-utils.js:300-365)
attaches colour metadata only and is modelled separately
(`resolveTintSpec`/colormap IO); it does not affect the control flow
embedded here. -/
def parseBlockstateM (ov : String → FileResult BsDoc)
    (asset : String → String → FileResult BsDoc) (ns item : String)
    (data unique dflt : List (String × CtxVal)) : Except Unit BsOut := do
  let json ← readJson (chosenBlockstateFile ov asset ns item)
  let models : List BsEntry :=
    match json.variants with
    | some vars =>
      match selectVariantEntry data unique dflt vars with
      | some sv => [sv.model]
      | none => []
    | none =>
      match json.multipart with
      | some parts => selectMultipart data unique dflt parts
      | none => []
  if json.allow_invalid_rotations then pure (BsOut.modelsOut models)
  else if models.any entryRotInvalid then pure BsOut.missingMarker
  else pure (BsOut.modelsOut models)

/-- The `parent` field of a model document. -/
def parentOf (doc : List (String × DVal)) : Option String :=
  match alookup "parent" doc with
  | some (DVal.str s) => some s
  | _ => none

/-- `resolveNamespace` (blockmodel-utils.js:46-53). -/
def resolveNamespace (s : String) : String × String :=
  match jsSplit ':' s with
  | [a, b] => (a, b)
  | _ => ("minecraft", s)

/-- Translation of the parent-chain walk of `resolveModelData`
(blockmodel-utils.js:560-580), fuelled (the JS `while (true)` loop can
run forever on a cyclic parent chain; `none` models divergence).  Each
step prefers the override store, reads and parses the document
(failures escape as `Except.error` to the surrounding catch), pushes it,
and follows a `parent` that is present and not a `builtin` marker after
stripping a `minecraft:` namespace.  (The `merged.overridden` flag set
when an override is used carries no further meaning here.) -/
def walkParents (ovm : String → FileResult (List (String × DVal)))
    (assetm : String → String → FileResult (List (String × DVal))) :
    Nat → String → String → Option (Except Unit (List (List (String × DVal))))
  | 0, _, _ => none
  | fuel + 1, ns, item =>
    let file := if jsFileExists (ovm item) then ovm item else assetm ns item
    match readJson file with
    | Except.error e => some (Except.error e)
    | Except.ok json =>
      match parentOf json with
      | none => some (Except.ok [json])
      | some par =>
        if jsStartsWith par "builtin" then some (Except.ok [json])
        else
          let r := resolveNamespace (stripMinecraft par)
          match walkParents ovm assetm fuel r.1 r.2 with
          | none => none
          | some (Except.error e) => some (Except.error e)
          | some (Except.ok stack) => some (Except.ok (json :: stack))

/-- The model-reference record threaded through `resolveModelData`:
the opt-out flag, placement rotations, and the `model` id. -/
structure MRef where
  allow_invalid_rotations : Bool
  x : Option Int
  y : Option Int
  z : Option Int
  modelStr : String
deriving DecidableEq

/-- The rotation-policy pre-check of `resolveModelData`
(blockmodel-utils.js:554): a non-multiple-of-90 placement rotation
without the opt-out flag. -/
def refRotInvalid (m : MRef) : Bool :=
  !m.allow_invalid_rotations && (badAxis m.x || badAxis m.y || badAxis m.z)

/-- Translation of the guarded stack construction of `resolveModelData`
(blockmodel-utils.js:553-584): a rotation-policy violation deletes the
placement rotation and throws; the catch around the walk replaces any
failure by the single fixed missing-model document (the bundled
`overrides/models/~missing.json`, passed in as `missing` since the asset
file itself is not part of src/) and rewrites `merged.model`.  `none`
models a diverging walk. -/
def buildStack (ovm : String → FileResult (List (String × DVal)))
    (assetm : String → String → FileResult (List (String × DVal)))
    (missing : List (String × DVal)) (m : MRef) (ns item : String) (fuel : Nat) :
    Option (List (List (String × DVal)) × MRef) :=
  if refRotInvalid m then
    some ([missing], MRef.mk m.allow_invalid_rotations none none none "~missing.json")
  else
    match walkParents ovm assetm fuel ns item with
    | none => none
    | some (Except.error _) =>
      some ([missing], MRef.mk m.allow_invalid_rotations m.x m.y m.z "~missing.json")
    | some (Except.ok stack) => some (stack, m)

/-- C6: a missing or unparsable top-level blockstate descriptor makes
`parseBlockstate` raise, while any failure during the parent-chain walk
of `resolveModelData` (missing file, parse error — and likewise a
rotation-policy violation without opt-out) is caught: the partial stack
is discarded and the fixed missing-model document is substituted, with
no error escaping (`buildStack` is total up to the divergence marker and
never returns an error). -/
theorem c6_fatal_vs_recovered :
    (∀ (ov : String → FileResult BsDoc) (asset : String → String → FileResult BsDoc)
        (ns item : String) (data unique dflt : List (String × CtxVal)),
      readJson (chosenBlockstateFile ov asset ns item) = Except.error () →
      parseBlockstateM ov asset ns item data unique dflt = Except.error ()) ∧
    (∀ ovm assetm (missing : List (String × DVal)) (m : MRef) (ns item : String) (fuel : Nat),
      walkParents ovm assetm fuel ns item = some (Except.error ()) →
      refRotInvalid m = false →
      buildStack ovm assetm missing m ns item fuel =
        some ([missing], MRef.mk m.allow_invalid_rotations m.x m.y m.z "~missing.json")) ∧
    (∀ ovm assetm (missing : List (String × DVal)) (m : MRef) (ns item : String) (fuel : Nat),
      refRotInvalid m = true →
      buildStack ovm assetm missing m ns item fuel =
        some ([missing], MRef.mk m.allow_invalid_rotations none none none "~missing.json")) := by
  refine ⟨?_, ?_, ?_⟩
  · intro ov asset ns item data unique dflt herr
    unfold parseBlockstateM
    rw [herr]
    rfl
  · intro ovm assetm missing m ns item fuel herr hrot
    unfold buildStack
    rw [hrot, herr]
    rfl
  · intro ovm assetm missing m ns item fuel hrot
    unfold buildStack
    rw [hrot]
    rfl

/-- Witness for `c6_fatal_vs_recovered`: an empty file system makes the
blockstate load fatal; a model whose parent is absent recovers to the
missing-model document; an invalid 45° placement rotation recovers
likewise. -/
theorem c6_fatal_vs_recovered_witness :
    parseBlockstateM (fun _ => FileResult.missing) (fun _ _ => FileResult.missing)
        "minecraft" "stone" [] [] [] = Except.error () ∧
    buildStack
        (fun _ => FileResult.missing)
        (fun _ i => if i = "m1" then FileResult.found [("parent", DVal.str "m2")]
          else FileResult.missing)
        [("missing", DVal.jbool true)] (MRef.mk false none none none "m1")
        "minecraft" "m1" 3 =
      some ([[("missing", DVal.jbool true)]], MRef.mk false none none none "~missing.json") ∧
    buildStack (fun _ => FileResult.missing) (fun _ _ => FileResult.missing)
        [("missing", DVal.jbool true)] (MRef.mk false (some 45) none none "m1")
        "minecraft" "m1" 3 =
      some ([[("missing", DVal.jbool true)]], MRef.mk false none none none "~missing.json") := by
  refine ⟨?_, ?_, ?_⟩
  · exact c6_fatal_vs_recovered.1 (fun _ => FileResult.missing) (fun _ _ => FileResult.missing)
      "minecraft" "stone" [] [] [] (by decide)
  · exact c6_fatal_vs_recovered.2.1 _ _ [("missing", DVal.jbool true)]
      (MRef.mk false none none none "m1") "minecraft" "m1" 3 (by decide) (by decide)
  · exact c6_fatal_vs_recovered.2.2 _ _ [("missing", DVal.jbool true)]
      (MRef.mk false (some 45) none none "m1") "minecraft" "m1" 3 (by decide)

/-! ## `loadModel`: geometry synthesis control flow and shading (C8, C10)

The shading pipeline mixes exact arithmetic (face-label permutations,
dot products, gradient interpolation) with transcendental calls
(`applyEuler` on the epsilon-offset display rotation, `Math.asin(t)*2/Math.PI`).
The transcendental primitives are abstracted into a `Trig` record the
statements quantify over; everything downstream of them is embedded
exactly.  The claims settled here (C8: abort semantics of an invalid
element rotation; C10: the `shade === false` white override) hold for
every interpretation of the primitives. -/

/-- A 3-vector of exact values. -/
structure Vec3 where
  vx : ℚ
  vy : ℚ
  vz : ℚ
deriving DecidableEq

/-- Abstract transcendental primitives: `rotateVec r v` is
`v.clone().applyEuler(new Euler(..r.., "YXZ"))` for the rotation triple
`r` (degrees, already epsilon-offset), and `asinNorm t` is
`Math.asin(t) * 2 / Math.PI`. -/
structure Trig where
  rotateVec : List ℚ → Vec3 → Vec3
  asinNorm : ℚ → ℚ

/-- The six canonical face normals (blockmodel-utils.js:850-857). -/
def baseNormals : String → Vec3 :=
  fun face =>
    if face = "west" then ⟨-1, 0, 0⟩
    else if face = "east" then ⟨1, 0, 0⟩
    else if face = "up" then ⟨0, 1, 0⟩
    else if face = "down" then ⟨0, -1, 0⟩
    else if face = "south" then ⟨0, 0, 1⟩
    else ⟨0, 0, -1⟩

/-- One 90° Z-rotation step of the face relabelling
(blockmodel-utils.js:860-869). -/
def zStep (f : String → Vec3) : String → Vec3 :=
  fun face =>
    if face = "up" then f "east"
    else if face = "east" then f "down"
    else if face = "down" then f "west"
    else if face = "west" then f "up"
    else f face

/-- One 90° Y-rotation step (blockmodel-utils.js:872-881). -/
def yStep (f : String → Vec3) : String → Vec3 :=
  fun face =>
    if face = "north" then f "east"
    else if face = "east" then f "south"
    else if face = "south" then f "west"
    else if face = "west" then f "north"
    else f face

/-- One 90° X-rotation step (blockmodel-utils.js:884-893). -/
def xStep (f : String → Vec3) : String → Vec3 :=
  fun face =>
    if face = "up" then f "north"
    else if face = "north" then f "down"
    else if face = "down" then f "south"
    else if face = "south" then f "up"
    else f face

/-- Iterate a relabelling step. -/
def iterateSteps (step : (String → Vec3) → String → Vec3) :
    Nat → (String → Vec3) → String → Vec3
  | 0, f => f
  | n + 1, f => iterateSteps step n (step f)

/-- Number of loop iterations for one placement axis:
`((v % 360) + 360) % 360` then `i < rot / 90` — a ceiling for rotations
that are not multiples of 90. -/
def rotCount (v : Option Int) : Nat :=
  ((((v.getD 0) % 360 + 360) % 360).toNat + 89) / 90

/-- The resolved model record as `loadModel` reads it. -/
structure RModel where
  x : Option Int
  y : Option Int
  z : Option Int
  uvlock : Bool
  gui_light : Option String
  ignore_rotations : Bool
  display : List (String × DisplaySlot)
  elements : List Element
  tints : Option (List String)
deriving DecidableEq

/-- The `display` argument of `loadModel`: a slot name, or a
configuration object (`{rotation, translation, scale, type, display}`). -/
inductive DisplayArg where
  | slotName (s : String)
  | config (rotation : Option (List ℚ)) (translation : Option (List ℚ))
      (scale : Option (List ℚ)) (dtype : Option String) (display : String)
deriving DecidableEq

/-- The display-settings selection (blockmodel-utils.js:829-842): a
`"fallback"` configuration prefers the model's own slot transform; the
rotation is discarded when the model opts out. -/
def resolveSettings (model : RModel) (d : DisplayArg) : Option DisplaySlot :=
  let settings :=
    match d with
    | DisplayArg.config rot tr sc ty disp =>
      if ty = some "fallback" ∧ (alookup disp model.display).isSome then
        alookup disp model.display
      else some ⟨rot, tr, sc⟩
    | DisplayArg.slotName s => alookup s model.display
  if model.ignore_rotations then
    match settings with
    | some s => some ⟨none, s.translation, s.scale⟩
    | none => none
  else settings

/-- The display rotation triple with the degenerate-trig epsilon
(blockmodel-utils.js:844-848; the double literal `0.00001` is written as
the rational it approximates — it only perturbs the abstract
`rotateVec`). -/
def displayRotation (model : RModel) (d : DisplayArg) : List ℚ :=
  (match resolveSettings model d with
   | some s =>
     match s.rotationD with
     | some r => r
     | none => [0, 0, 0]
   | none => [0, 0, 0]).map (fun e => e + 1 / 100000)

/-- The face normals after the model placement relabelling, Z then Y
then X (blockmodel-utils.js:859-893). -/
def modelFaceNormals (model : RModel) : String → Vec3 :=
  iterateSteps xStep (rotCount model.x)
    (iterateSteps yStep (rotCount model.y)
      (iterateSteps zStep (rotCount model.z) baseNormals))

/-- The rotated normal of a face (blockmodel-utils.js:895-907). -/
def rotatedNormal (trig : Trig) (model : RModel) (d : DisplayArg) (face : String) : Vec3 :=
  trig.rotateVec (displayRotation model d) (modelFaceNormals model face)

/-- `faceMapping` (blockmodel-utils.js:909-919): which physical
direction a logical face points, by largest absolute component of the
rotated normal (first index wins, as `indexOf(Math.max(...))`). -/
def faceMapping (trig : Trig) (model : RModel) (d : DisplayArg) (face : String) : String :=
  let vec := rotatedNormal trig model d face
  let ax := |vec.vx|
  let ay := |vec.vy|
  let az := |vec.vz|
  let m := max ax (max ay az)
  if ax = m then (if vec.vx > 0 then "east" else "west")
  else if ay = m then (if vec.vy > 0 then "up" else "down")
  else (if vec.vz > 0 then "south" else "north")

/-- The fixed five-point gradient (blockmodel-utils.js:924). -/
def colsGradient : List ℚ := [471/1000, 494/1000, 686/1000, 851/1000, 988/1000]

/-- `cols[i] ?? cols[cols.length - 1]`. -/
def colAt (i : Int) : ℚ :=
  if 0 ≤ i ∧ i < 5 then colsGradient.getD i.toNat 0 else 988/1000

/-- The arcsine-eased gradient interpolation shared by both lighting
modes (blockmodel-utils.js:941-949, 963-971). -/
def shadeInterp (trig : Trig) (t : ℚ) : ℚ :=
  let linear := trig.asinNorm t
  let scaled := linear * 4
  let i : Int := ⌊scaled⌋
  let f := scaled - i
  colAt i + (colAt (i + 1) - colAt i) * f

/-- Dot product. -/
def dotQ (a b : Vec3) : ℚ := a.vx * b.vx + a.vy * b.vy + a.vz * b.vz

/-- `getFaceColour` (blockmodel-utils.js:926-975): up and down are fixed,
side-lit measures the rotated normal against the −X axis, front-lit
(`gui_light === "front"`) against +Z with a boost for negative X. -/
def getFaceColour (trig : Trig) (model : RModel) (d : DisplayArg) (faceName : String) :
    List ℚ :=
  let newFace := faceMapping trig model d faceName
  if newFace = "up" then [988/1000, 988/1000, 988/1000]
  else if newFace = "down" then [471/1000, 471/1000, 471/1000]
  else
    let normal := rotatedNormal trig model d faceName
    if model.gui_light = some "front" then
      let t0 := max 0 (dotQ normal ⟨0, 0, 1⟩)
      let t := if normal.vx < 0 then min 1 ((t0 + 12/10) / 2) else t0
      let v := shadeInterp trig t
      [v, v, v]
    else
      let t := max 0 (dotQ normal ⟨-1, 0, 0⟩)
      let v := shadeInterp trig t
      [v, v, v]

/-- The per-face vertex colour (blockmodel-utils.js:1232-1237): an
element with `shade === false` gets full white on every face, otherwise
the lighting-mode colour. -/
def elementFaceColour (trig : Trig) (model : RModel) (d : DisplayArg) (e : Element)
    (faceName : String) : List ℚ :=
  if e.shade = some false then [1, 1, 1] else getFaceColour trig model d faceName

/-- The face iteration order of the box geometry
(blockmodel-utils.js:1009). -/
def faceOrder : List String := ["west", "east", "up", "down", "south", "north"]

/-- The observable per-element render: the faces present and their
assigned vertex colours. -/
structure RenderedElem where
  faceCols : List (String × List ℚ)
deriving DecidableEq

/-- Render of one element (the colour assignments of the face loop,
blockmodel-utils.js:1014-1245). -/
def renderElem (trig : Trig) (model : RModel) (d : DisplayArg) (e : Element) : RenderedElem :=
  ⟨faceOrder.filterMap (fun fname =>
    match alookup fname e.faces with
    | some _ => some (fname, elementFaceColour trig model d e fname)
    | none => none)⟩

/-- The axis-XOR-angle test on an element rotation
(blockmodel-utils.js:1281-1282): `(!isNaN(angle) || axis) &&
(isNaN(angle) || !axis)` — exactly one of a numeric `angle` and a truthy
`axis`. -/
def badElemRot (e : Element) : Bool :=
  match e.rotationE with
  | none => false
  | some r =>
    let hasAngle := r.angle.isSome
    let hasAxis :=
      match r.axis with
      | some s => !(s == "")
      | none => false
    (hasAngle || hasAxis) && (!hasAngle || !hasAxis)

/-- A scene addition made by one `loadModel` call: the recursive render
of the fixed missing-model placeholder (`loadModel(scene, assets,
resolveModelData("~missing"), display)` followed by `return`), or the
root group holding the rendered elements. -/
inductive SceneItem where
  | missingRender
  | rootGroup (elems : List RenderedElem)
deriving DecidableEq

/-- The element loop of `loadModel` (blockmodel-utils.js:994-1317):
processing aborts at the first element whose rotation fails the
axis-XOR-angle test. -/
def processElems (trig : Trig) (model : RModel) (d : DisplayArg) :
    List Element → Option (List RenderedElem)
  | [] => some []
  | e :: rest =>
    if badElemRot e then none
    else
      match processElems trig model d rest with
      | none => none
      | some items => some (renderElem trig model d e :: items)

/-- What one `loadModel` call adds to the scene
(blockmodel-utils.js:788-1346): on an element-rotation error the
placeholder render is added and the call returns before
`scene.add(rootGroup)` — the model root (with every element built so
far) is never added; otherwise the single root group is added at the
end. -/
def loadModelE (trig : Trig) (model : RModel) (d : DisplayArg) : List SceneItem :=
  match processElems trig model d model.elements with
  | none => [SceneItem.missingRender]
  | some items => [SceneItem.rootGroup items]

/-- C8 (amended): an element whose rotation carries exactly one of
`axis` and `angle` aborts geometry synthesis for the **whole model**:
the scene receives only the missing-model placeholder render — earlier
elements are discarded with the never-added root group and later
elements are never processed.  Only a model with no such element renders
its root group with every element. -/
theorem c8_invalid_rotation_aborts_model (trig : Trig) (model : RModel) (d : DisplayArg) :
    loadModelE trig model d =
      (if model.elements.any badElemRot then [SceneItem.missingRender]
       else [SceneItem.rootGroup (model.elements.map (renderElem trig model d))]) := by
  unfold loadModelE
  have h : ∀ (es : List Element),
      processElems trig model d es =
        (if es.any badElemRot then none else some (es.map (renderElem trig model d))) := by
    intro es
    induction es with
    | nil => rfl
    | cons e rest ih =>
      unfold processElems
      rw [ih]
      by_cases hb : badElemRot e
      · simp [hb]
      · by_cases hr : rest.any badElemRot
        · simp [hb, hr]
        · simp [hb, hr]
  rw [h model.elements]
  by_cases ha : model.elements.any badElemRot
  · simp [ha]
  · simp [ha]

/-- C8 counterexample to the claim as stated: a model with a valid
textured element followed by an element whose rotation has an `axis` but
no `angle`.  The claim says the placeholder replaces only the bad
element and the other elements render as normal; the code returns after
rendering the placeholder, so the scene holds **only** the placeholder —
the valid first element is not rendered. -/
theorem c8_counterexample :
    loadModelE ⟨fun _ v => v, fun t => t⟩
        (RModel.mk none none none false none false []
          [Element.mk [0, 0, 0] [16, 16, 16]
            [("north", ElemFace.mk (some "#a") none none none)] none none,
           Element.mk [0, 0, 0] [16, 16, 16] []
            (some (ElemRotation.mk [8, 8, 8] (some "x") none false none none none)) none]
          none)
        (DisplayArg.slotName "gui") = [SceneItem.missingRender] ∧
    badElemRot (Element.mk [0, 0, 0] [16, 16, 16]
      [("north", ElemFace.mk (some "#a") none none none)] none none) = false := by
  exact ⟨by decide, by decide⟩

/-- C10: every face of an element with `shade === false` is assigned
vertex colour `[1, 1, 1]`, regardless of the model placement rotation,
the display rotation and the `gui_light` mode (the statement quantifies
over the model, the display argument and every interpretation of the
trigonometric primitives). -/
theorem c10_shade_false_white (trig : Trig) (model : RModel) (d : DisplayArg)
    (e : Element) (hshade : e.shade = some false) :
    (∀ faceName, elementFaceColour trig model d e faceName = [1, 1, 1]) ∧
    (∀ p ∈ (renderElem trig model d e).faceCols, p.2 = [1, 1, 1]) := by
  have hcol : ∀ faceName, elementFaceColour trig model d e faceName = [1, 1, 1] := by
    intro faceName
    unfold elementFaceColour
    rw [if_pos hshade]
  refine ⟨hcol, ?_⟩
  intro p hp
  unfold renderElem at hp
  simp only [] at hp
  obtain ⟨fname, _, hf⟩ := List.mem_filterMap.mp hp
  cases hl : alookup fname e.faces with
  | none => rw [hl] at hf; exact absurd hf (by simp)
  | some face =>
    rw [hl] at hf
    have hp2 := Option.some.inj hf
    rw [← hp2]
    exact hcol fname

/-- Witness for `c10_shade_false_white`: a shaded-off element inside a
rotated, front-lit model still renders full white on its faces. -/
theorem c10_shade_false_white_witness :
    (Element.mk [0, 0, 0] [16, 16, 16]
      [("north", ElemFace.mk (some "#a") none none none),
       ("up", ElemFace.mk (some "#a") none none none)] none (some false)).shade =
      some false ∧
    (∀ p ∈ (renderElem ⟨fun _ v => v, fun t => t⟩
        (RModel.mk (some 90) (some 180) none false (some "front") false [] [] none)
        (DisplayArg.slotName "gui")
        (Element.mk [0, 0, 0] [16, 16, 16]
          [("north", ElemFace.mk (some "#a") none none none),
           ("up", ElemFace.mk (some "#a") none none none)] none (some false))).faceCols,
      p.2 = [1, 1, 1]) := by
  refine ⟨by decide, ?_⟩
  exact (c10_shade_false_white ⟨fun _ v => v, fun t => t⟩
    (RModel.mk (some 90) (some 180) none false (some "front") false [] [] none)
    (DisplayArg.slotName "gui")
    (Element.mk [0, 0, 0] [16, 16, 16]
      [("north", ElemFace.mk (some "#a") none none none),
       ("up", ElemFace.mk (some "#a") none none none)] none (some false)) (by decide)).2
